import Mathlib

/-!
Verification of the go-spring property store (`spring-core/conf/conf.go`)
and the container task primitives (`gs` package, `pandora.Go` / `pandora.Invoke`).

Strings are modelled as `List Char` (Go strings are byte sequences; the code
under study only concatenates, splits on `'.'`, and compares them, so a char
list is a faithful model).  The flat store `Properties.m : map[string]string`
is modelled as an association list with overwriting insertion; Go map
iteration order is unspecified, the list fixes one order, and every claim
proved below is order-independent.
-/

namespace GoSpring

/-- Short name for the string model. -/
abbrev Str := List Char

/-- Converts a Lean string literal to the model type. -/
def str (s : String) : Str := s.toList

/-- The root key marker `"$"` (`const rootKey = "$"` in conf.go). -/
def rootStr : Str := str "$"

/-- The root prefix `"$."` stripped by `Properties.Get`. -/
def rootDot : Str := str "$."

/-! ### Splitting a key on `'.'` — model of `strings.Split(s, ".")` -/

/-- `strings.Split(s, ".")`: the (always nonempty) list of dot-separated
segments of `s`. -/
def splitOnDot : Str → List Str
  | [] => [[]]
  | c :: t =>
    let r := splitOnDot t
    if c = '.' then [] :: r else (c :: r.headI) :: r.tail

theorem splitOnDot_ne_nil (s : Str) : splitOnDot s ≠ [] := by
  cases s with
  | nil => simp [splitOnDot]
  | cons c t =>
    simp only [splitOnDot]
    split
    · simp
    · simp

theorem splitOnDot_nil : splitOnDot [] = [[]] := rfl

theorem splitOnDot_cons_dot (t : Str) : splitOnDot ('.' :: t) = [] :: splitOnDot t := by
  simp [splitOnDot]

theorem splitOnDot_cons_ne (c : Char) (t : Str) (h : c ≠ '.') :
    splitOnDot (c :: t) = (c :: (splitOnDot t).headI) :: (splitOnDot t).tail := by
  simp [splitOnDot, h]

/-- Splitting distributes over a dot: `Split(a ++ "." ++ b) = Split a ++ Split b`. -/
theorem splitOnDot_append_dot (a b : Str) :
    splitOnDot (a ++ '.' :: b) = splitOnDot a ++ splitOnDot b := by
  induction a with
  | nil => simp [splitOnDot_cons_dot, splitOnDot_nil]
  | cons c t ih =>
    by_cases hc : c = '.'
    · subst hc
      simp [splitOnDot_cons_dot, ih]
    · rw [List.cons_append, splitOnDot_cons_ne c _ hc, splitOnDot_cons_ne c t hc, ih]
      have ht := splitOnDot_ne_nil t
      cases hsp : splitOnDot t with
      | nil => exact absurd hsp ht
      | cons x xs => simp

/-- A dot-free string splits into the single segment `[s]`. -/
theorem splitOnDot_of_dotfree (s : Str) (h : '.' ∉ s) : splitOnDot s = [s] := by
  induction s with
  | nil => rfl
  | cons c t ih =>
    have hc : c ≠ '.' := fun hh => h (hh ▸ List.mem_cons_self c t)
    have ht : '.' ∉ t := fun hh => h (List.mem_cons_of_mem c hh)
    rw [splitOnDot_cons_ne c t hc, ih ht]
    simp

/-- Every segment produced by `splitOnDot` is dot-free. -/
theorem splitOnDot_dotfree (s : Str) : ∀ x ∈ splitOnDot s, '.' ∉ x := by
  induction s with
  | nil => intro x hx; simp [splitOnDot_nil] at hx; simp [hx]
  | cons c t ih =>
    intro x hx
    by_cases hc : c = '.'
    · subst hc
      rw [splitOnDot_cons_dot] at hx
      rcases List.mem_cons.mp hx with h | h
      · simp [h]
      · exact ih x h
    · rw [splitOnDot_cons_ne c t hc] at hx
      rcases List.mem_cons.mp hx with h | h
      · subst h
        intro hmem
        rcases List.mem_cons.mp hmem with h | h
        · exact hc h.symm
        · have : (splitOnDot t).headI ∈ splitOnDot t := by
            cases hsp : splitOnDot t with
            | nil => exact absurd hsp (splitOnDot_ne_nil t)
            | cons y ys => simp
          exact ih _ this h
      · have : x ∈ splitOnDot t := by
          cases hsp : splitOnDot t with
          | nil => exact absurd hsp (splitOnDot_ne_nil t)
          | cons y ys =>
            rw [hsp] at h
            simp only [List.tail_cons] at h
            exact List.mem_cons_of_mem y h
        exact ih x this

/-- Joins segments back with dots; left inverse of `splitOnDot`. -/
def joinDots : List Str → Str
  | [] => []
  | [x] => x
  | x :: y :: t => x ++ '.' :: joinDots (y :: t)

theorem joinDots_append (a b : List Str) (ha : a ≠ []) (hb : b ≠ []) :
    joinDots (a ++ b) = joinDots a ++ '.' :: joinDots b := by
  induction a with
  | nil => exact absurd rfl ha
  | cons x t ih =>
    cases t with
    | nil =>
      cases b with
      | nil => exact absurd rfl hb
      | cons y s => simp [joinDots]
    | cons y s =>
      have h2 : joinDots ((y :: s) ++ b) = joinDots (y :: s) ++ '.' :: joinDots b :=
        ih (by simp)
      simp only [List.cons_append] at h2
      show x ++ '.' :: joinDots (y :: (s ++ b)) =
        (x ++ '.' :: joinDots (y :: s)) ++ '.' :: joinDots b
      rw [h2]
      simp [List.append_assoc]

theorem joinDots_splitOnDot (s : Str) : joinDots (splitOnDot s) = s := by
  induction s with
  | nil => rfl
  | cons c t ih =>
    by_cases hc : c = '.'
    · subst hc
      rw [splitOnDot_cons_dot]
      have ht := splitOnDot_ne_nil t
      cases hsp : splitOnDot t with
      | nil => exact absurd hsp ht
      | cons y ys =>
        rw [hsp] at ih
        simp [joinDots, ih]
    · rw [splitOnDot_cons_ne c t hc]
      have ht := splitOnDot_ne_nil t
      cases hsp : splitOnDot t with
      | nil => exact absurd hsp ht
      | cons y ys =>
        rw [hsp] at ih
        cases ys with
        | nil => simp only [joinDots] at ih ⊢; simp [ih]
        | cons z zs =>
          simp only [joinDots, List.headI, List.tail] at ih ⊢
          rw [List.cons_append, ih]

/-- `splitOnDot` is injective. -/
theorem splitOnDot_inj {a b : Str} (h : splitOnDot a = splitOnDot b) : a = b := by
  have := congrArg joinDots h
  rwa [joinDots_splitOnDot, joinDots_splitOnDot] at this

/-- The first dot-segment of a string: `strings.Split(s, ".")[0]`. -/
def firstSeg (s : Str) : Str := (splitOnDot s).headI

/-! ### The flat store: `map[string]string` as an association list -/

/-- The store type of `Properties.m`. -/
abbrev Store := List (Str × Str)

/-- Go map assignment `m[k] = v`: overwrite if present, else append. -/
def insertKV (k v : Str) : Store → Store
  | [] => [(k, v)]
  | (k₀, v₀) :: t => if k₀ = k then (k, v) :: t else (k₀, v₀) :: insertKV k v t

/-- Go map read `m[k]`. -/
def lookupKV (k : Str) : Store → Option Str
  | [] => none
  | (k₀, v₀) :: t => if k₀ = k then some v₀ else lookupKV k t

/-- `Properties.Keys()`: the list of keys of the store. -/
def keysOf (st : Store) : List Str := st.map Prod.fst

@[simp] theorem lookupKV_nil (k : Str) : lookupKV k [] = none := rfl

theorem lookupKV_insertKV_self (k v : Str) (st : Store) :
    lookupKV k (insertKV k v st) = some v := by
  induction st with
  | nil => simp [insertKV, lookupKV]
  | cons p t ih =>
    obtain ⟨k₀, v₀⟩ := p
    by_cases h : k₀ = k
    · simp [insertKV, lookupKV, h]
    · simp [insertKV, lookupKV, h, ih]

theorem lookupKV_insertKV_ne (k k₁ v : Str) (st : Store) (h : k₁ ≠ k) :
    lookupKV k (insertKV k₁ v st) = lookupKV k st := by
  induction st with
  | nil => simp [insertKV, lookupKV, h]
  | cons p t ih =>
    obtain ⟨k₀, v₀⟩ := p
    by_cases h₀ : k₀ = k₁
    · subst h₀
      simp [insertKV, lookupKV, h]
    · simp only [insertKV, if_neg h₀]
      by_cases h₁ : k₀ = k
      · simp [lookupKV, h₁]
      · simp [lookupKV, h₁, ih]

theorem lookupKV_eq_none_iff (k : Str) (st : Store) :
    lookupKV k st = none ↔ k ∉ keysOf st := by
  induction st with
  | nil => simp [keysOf]
  | cons p t ih =>
    obtain ⟨k₀, v₀⟩ := p
    by_cases h : k₀ = k
    · simp [lookupKV, h, keysOf]
    · simp only [lookupKV, if_neg h, keysOf, List.map_cons, List.mem_cons]
      rw [ih]
      constructor
      · rintro hn (hh | hh)
        · exact h hh.symm
        · exact hn hh
      · intro hn
        rw [keysOf]
        intro hm
        exact hn (Or.inr hm)

/-- Inserting a fresh key appends it at the end of the association list. -/
theorem insertKV_of_not_mem (k v : Str) (st : Store) (h : k ∉ keysOf st) :
    insertKV k v st = st ++ [(k, v)] := by
  induction st with
  | nil => rfl
  | cons p t ih =>
    obtain ⟨k₀, v₀⟩ := p
    have hk : k₀ ≠ k := by
      intro hh
      exact h (by simp [keysOf, hh])
    have ht : k ∉ keysOf t := by
      intro hh
      exact h (by simp [keysOf] at hh ⊢; exact Or.inr hh)
    simp [insertKV, hk, ih ht]

/-! ### Go values: the shapes `Properties.Set` decomposes

`reflect.Kind` dispatch in `Set` distinguishes maps, arrays/slices and
scalars.  Arrays and slices take the same branch, so both are `vSeq`.
Scalar string rendering (`cast.ToString`) is modelled for the scalar kinds
the claims exercise. -/

mutual
inductive GoVal where
  | vStr : Str → GoVal
  | vInt : Int → GoVal
  | vBool : Bool → GoVal
  | vMap : GoFields → GoVal
  | vSeq : GoElems → GoVal
  deriving DecidableEq

inductive GoFields where
  | nil : GoFields
  | cons : Str → GoVal → GoFields → GoFields
  deriving DecidableEq

inductive GoElems where
  | nil : GoElems
  | cons : GoVal → GoElems → GoElems
  deriving DecidableEq
end

/-! Decimal rendering of a natural number, for `fmt.Sprintf("%s[%d]", key, i)`.
Fuel-based so that the kernel can evaluate it. -/

/-- The decimal digit character for `n < 10` (`'9'` as catch-all). -/
def digCh : Nat → Char
  | 0 => '0' | 1 => '1' | 2 => '2' | 3 => '3' | 4 => '4'
  | 5 => '5' | 6 => '6' | 7 => '7' | 8 => '8' | _ => '9'

/-- Fuel-driven decimal rendering accumulator. -/
def natCharsCore : Nat → Nat → Str → Str
  | 0, _, acc => acc
  | f + 1, n, acc =>
    if n < 10 then digCh n :: acc
    else natCharsCore f (n / 10) (digCh (n % 10) :: acc)

/-- Decimal digit string of `n` (what `%d` prints for a nonnegative index). -/
def natChars (n : Nat) : Str := natCharsCore (n + 1) n []

/-- The index extension `"[" + i + "]"` appended to a key by the slice branch. -/
def brak (i : Nat) : Str := '[' :: natChars i ++ [']']

/-- `cast.ToString` on the scalar kinds of the model. -/
def goToString : GoVal → Str
  | .vStr s => s
  | .vInt n => if n < 0 then '-' :: natChars n.natAbs else natChars n.natAbs
  | .vBool b => if b then str "true" else str "false"
  | .vMap _ => []   -- never reached by Set; Set recurses on composites
  | .vSeq _ => []

namespace Properties

/-! ### `Properties.Set` (conf.go lines 148–165), translated from the source:

```go
func (p *Properties) Set(key string, val interface{}) {
    switch v := reflect.ValueOf(val); v.Kind() {
    case reflect.Map:
        for _, k := range v.MapKeys() {
            p.Set(key+"."+cast.ToString(k.Interface()), v.MapIndex(k).Interface())
        }
    case reflect.Array, reflect.Slice:
        for i := 0; i < v.Len(); i++ {
            p.Set(fmt.Sprintf("%s[%d]", key, i), v.Index(i).Interface())
        }
    default:
        p.m[key] = cast.ToString(val)
    }
}
``` -/

mutual
/-- `Properties.Set`: recursive flattening of a value into the store.
The three scalar arms are the expanded `default` branch of the Go switch. -/
def set : Str → GoVal → Store → Store
  | key, .vMap fs, st => setFields key fs st
  | key, .vSeq es, st => setElems key 0 es st
  | key, .vStr s, st => insertKV key (goToString (.vStr s)) st
  | key, .vInt n, st => insertKV key (goToString (.vInt n)) st
  | key, .vBool b, st => insertKV key (goToString (.vBool b)) st
termination_by structural _ v _ => v

/-- The map branch of `Set`: one recursive call per field. -/
def setFields : Str → GoFields → Store → Store
  | _, .nil, st => st
  | key, .cons f w t, st => setFields key t (set (key ++ '.' :: f) w st)
termination_by structural _ fs _ => fs

/-- The slice branch of `Set`: one recursive call per element, at index `i`. -/
def setElems : Str → Nat → GoElems → Store → Store
  | _, _, .nil, st => st
  | key, i, .cons w t, st => setElems key (i + 1) t (set (key ++ brak i) w st)
termination_by structural _ _ es _ => es
end

/-! ### `Properties.Get` (conf.go lines 125–141), translated from the source:

```go
func (p *Properties) Get(key string, opts ...GetOption) interface{} {
    key = strings.TrimPrefix(key, rootKey+".")
    if val, ok := p.m[key]; ok {
        return val
    }
    arg := getArg{}
    for _, opt := range opts {
        opt(&arg)
    }
    if arg.def != nil {
        return cast.ToString(arg.def)
    }
    return nil
}
```

The Go return type `interface{}` (a string or `nil`) is `Option Str`:
`none` is the explicit absent marker `nil`. -/

/-- `getArg`: the option record accumulated by `GetOption`s. -/
structure GetArg where
  defv : Option GoVal
  deriving DecidableEq

/-- `type GetOption func(arg *getArg)`. -/
abbrev GetOption := GetArg → GetArg

/-- `Def(v)`: sets the default value of a `Get` call. -/
def Def (v : GoVal) : GetOption := fun a => { a with defv := some v }

/-- `strings.TrimPrefix(key, "$.")`. -/
def trimRootPre (k : Str) : Str :=
  if rootDot.isPrefixOf k then k.drop rootDot.length else k

/-- The default value carried by a list of `GetOption`s (`arg.def` after the
option loop). -/
def defOf (opts : List GetOption) : Option GoVal :=
  (opts.foldl (fun (a : GetArg) (o : GetOption) => o a) { defv := none }).defv

/-- `Properties.Get`. -/
def get (st : Store) (key : Str) (opts : List GetOption) : Option Str :=
  let key := trimRootPre key
  match lookupKV key st with
  | some val => some val
  | none =>
    match defOf opts with
    | some d => some (goToString d)
    | none => none

end Properties

/-! ### The spec-side flattening (§4.1 of the spec)

"if `value` is a composite (record or sequence), recursively decomposes it —
record fields become `key.field`, sequence elements become `key[i]` — until
only scalars remain, then stores the scalar's string representation",
overwriting colliding keys.  `specFlatten` produces that list of leaf
assignments; the refinement theorem for C1 shows `Set` is exactly the
overwriting insertion of this list. -/

mutual
/-- Spec-side leaf list of `(key, value)`. -/
def specFlatten : Str → GoVal → List (Str × Str)
  | key, .vMap fs => specFlattenFields key fs
  | key, .vSeq es => specFlattenElems key 0 es
  | key, .vStr s => [(key, goToString (.vStr s))]
  | key, .vInt n => [(key, goToString (.vInt n))]
  | key, .vBool b => [(key, goToString (.vBool b))]
termination_by structural _ v => v

/-- Leaf list of a record: each field `f` contributes leaves under `key.f`. -/
def specFlattenFields : Str → GoFields → List (Str × Str)
  | _, .nil => []
  | key, .cons f w t => specFlatten (key ++ '.' :: f) w ++ specFlattenFields key t
termination_by structural _ fs => fs

/-- Leaf list of a sequence: element `i` contributes leaves under `key[i]`. -/
def specFlattenElems : Str → Nat → GoElems → List (Str × Str)
  | _, _, .nil => []
  | key, i, .cons w t => specFlatten (key ++ brak i) w ++ specFlattenElems key (i + 1) t
termination_by structural _ _ es => es
end

/-- Overwriting insertion of a list of leaf assignments, in order. -/
def insertAll (l : List (Str × Str)) (st : Store) : Store :=
  l.foldl (fun m kv => insertKV kv.1 kv.2 m) st

theorem insertAll_nil (st : Store) : insertAll [] st = st := rfl

theorem insertAll_append (a b : List (Str × Str)) (st : Store) :
    insertAll (a ++ b) st = insertAll b (insertAll a st) := by
  simp [insertAll, List.foldl_append]

/-- Mutual induction principle for `GoVal` / `GoFields` / `GoElems`,
packaged from the generated mutual recursors. -/
theorem goVal_mutual_ind (M1 : GoVal → Prop) (M2 : GoFields → Prop) (M3 : GoElems → Prop)
    (hs : ∀ s, M1 (.vStr s)) (hi : ∀ n, M1 (.vInt n)) (hb : ∀ b, M1 (.vBool b))
    (hm : ∀ fs, M2 fs → M1 (.vMap fs)) (hq : ∀ es, M3 es → M1 (.vSeq es))
    (h2n : M2 .nil) (h2c : ∀ f w t, M1 w → M2 t → M2 (.cons f w t))
    (h3n : M3 .nil) (h3c : ∀ w t, M1 w → M3 t → M3 (.cons w t)) :
    (∀ v, M1 v) ∧ (∀ fs, M2 fs) ∧ (∀ es, M3 es) :=
  ⟨fun v => @GoVal.rec M1 M2 M3 hs hi hb hm hq h2n h2c h3n h3c v,
   fun fs => @GoFields.rec M1 M2 M3 hs hi hb hm hq h2n h2c h3n h3c fs,
   fun es => @GoElems.rec M1 M2 M3 hs hi hb hm hq h2n h2c h3n h3c es⟩

theorem set_eq_insertAll_all :
    (∀ v : GoVal, ∀ key st, Properties.set key v st = insertAll (specFlatten key v) st) ∧
    (∀ fs : GoFields, ∀ key st,
      Properties.setFields key fs st = insertAll (specFlattenFields key fs) st) ∧
    (∀ es : GoElems, ∀ key i st,
      Properties.setElems key i es st = insertAll (specFlattenElems key i es) st) := by
  refine goVal_mutual_ind _ _ _ ?_ ?_ ?_ ?_ ?_ ?_ ?_ ?_ ?_
  · intro s key st; rfl
  · intro n key st; rfl
  · intro b key st; rfl
  · intro fs ih key st; exact ih key st
  · intro es ih key st; exact ih key 0 st
  · intro key st; rfl
  · intro f w t ihw iht key st
    have hstep : Properties.setFields key (.cons f w t) st
        = Properties.setFields key t (Properties.set (key ++ '.' :: f) w st) := rfl
    have hflat : specFlattenFields key (.cons f w t)
        = specFlatten (key ++ '.' :: f) w ++ specFlattenFields key t := rfl
    rw [hstep, ihw (key ++ '.' :: f) st, iht key, hflat, insertAll_append]
  · intro key i st; rfl
  · intro w t ihw iht key i st
    have hstep : Properties.setElems key i (.cons w t) st
        = Properties.setElems key (i + 1) t (Properties.set (key ++ brak i) w st) := rfl
    have hflat : specFlattenElems key i (.cons w t)
        = specFlatten (key ++ brak i) w ++ specFlattenElems key (i + 1) t := rfl
    rw [hstep, ihw (key ++ brak i) st, iht key (i + 1), hflat, insertAll_append]

theorem set_eq_insertAll (key : Str) (v : GoVal) (st : Store) :
    Properties.set key v st = insertAll (specFlatten key v) st :=
  set_eq_insertAll_all.1 v key st

theorem setFields_eq_insertAll (key : Str) (fs : GoFields) (st : Store) :
    Properties.setFields key fs st = insertAll (specFlattenFields key fs) st :=
  set_eq_insertAll_all.2.1 fs key st

theorem setElems_eq_insertAll (key : Str) (i : Nat) (es : GoElems) (st : Store) :
    Properties.setElems key i es st = insertAll (specFlattenElems key i es) st :=
  set_eq_insertAll_all.2.2 es key i st

/-! ### Basic facts about `Properties.get` -/

theorem get_of_lookup_some (st : Store) (key : Str) (opts : List Properties.GetOption)
    (v : Str) (h : lookupKV (Properties.trimRootPre key) st = some v) :
    Properties.get st key opts = some v := by
  simp [Properties.get, h]

theorem get_of_lookup_none_def_some (st : Store) (key : Str)
    (opts : List Properties.GetOption) (d : GoVal)
    (h : lookupKV (Properties.trimRootPre key) st = none)
    (hd : Properties.defOf opts = some d) :
    Properties.get st key opts = some (goToString d) := by
  simp [Properties.get, h, hd]

theorem get_of_lookup_none_def_none (st : Store) (key : Str)
    (opts : List Properties.GetOption)
    (h : lookupKV (Properties.trimRootPre key) st = none)
    (hd : Properties.defOf opts = none) :
    Properties.get st key opts = none := by
  simp [Properties.get, h, hd]

theorem trimRootPre_append (k : Str) : Properties.trimRootPre (rootDot ++ k) = k := by
  have hp : rootDot.isPrefixOf (rootDot ++ k) = true :=
    List.isPrefixOf_iff_prefix.mpr (List.prefix_append rootDot k)
  simp [Properties.trimRootPre, hp, List.drop_left]

/-! ### `Properties.Group` (conf.go lines 236–261), translated from the source:

```go
func (p *Properties) Group(prefix string) []string {
    trimPrefix := func(key, prefix string) (string, bool) {
        if prefix == rootKey { return key, true }
        if !strings.HasPrefix(key, prefix+".") { return "", false }
        return strings.TrimPrefix(key, prefix+"."), true
    }
    var groups []string
    for _, key := range p.Keys() {
        s, ok := trimPrefix(key, prefix)
        if !ok { continue }
        k := strings.Split(s, ".")[0]
        if contain.Strings(groups, k) >= 0 { continue }
        groups = append(groups, k)
    }
    return groups
}
``` -/

namespace Properties

/-- The inner `trimPrefix` closure of `Group`; `none` is the `ok = false` case. -/
def trimPreG (key pre : Str) : Option Str :=
  if pre = rootStr then some key
  else if (pre ++ ['.']).isPrefixOf key then some (key.drop (pre ++ ['.']).length)
  else none

/-- One iteration of `Group`'s loop body. -/
def groupStep (pre : Str) (gs : List Str) (key : Str) : List Str :=
  match trimPreG key pre with
  | none => gs
  | some s => if firstSeg s ∈ gs then gs else gs ++ [firstSeg s]

/-- `Properties.Group`: de-duplicated first dot-segments of the keys under
`pre`. -/
def group (st : Store) (pre : Str) : List Str :=
  (keysOf st).foldl (groupStep pre) []

theorem groupStep_none (pre : Str) (gs : List Str) (key : Str) (h : trimPreG key pre = none) :
    groupStep pre gs key = gs := by
  simp [groupStep, h]

theorem groupStep_some (pre : Str) (gs : List Str) (key s : Str)
    (h : trimPreG key pre = some s) :
    groupStep pre gs key = if firstSeg s ∈ gs then gs else gs ++ [firstSeg s] := by
  simp [groupStep, h]

end Properties

/-! ### Group-driven reconstruction (spec §8, "Flattening/unflattening
round-trip") -/

/-- Extends a prefix by a child segment; at the root marker the child itself
is the new prefix (matching `Group`'s root behaviour). -/
def joinKey (p g : Str) : Str := if p = rootStr then g else p ++ '.' :: g

/-- Modelled from the spec: the `Group`-driven reconstruction of the leaf-key
set, which is not a function of the repository.  Per spec §8, reconstruction
starts at the root marker and repeatedly enumerates the de-duplicated
first-level child segments via `Group`; a prefix that is itself a stored key
is a recovered leaf.  `fuel` bounds the recursion depth. -/
def recover (st : Store) : Nat → Str → List Str
  | 0, _ => []
  | f + 1, p =>
    if (lookupKV p st).isSome then [p]
    else (Properties.group st p).flatMap (fun g => recover st f (joinKey p g))

/-- Reconstruction entry point: recovery from the root marker. -/
def recoverAll (st : Store) (fuel : Nat) : List Str := recover st fuel rootStr

/-! Auxiliary characterisations for `Group` and `recover`. -/

theorem trimPreG_root (k : Str) : Properties.trimPreG k rootStr = some k := by
  simp [Properties.trimPreG]

theorem trimPreG_eq_some (k p s : Str) (hp : p ≠ rootStr) :
    Properties.trimPreG k p = some s ↔ k = p ++ '.' :: s := by
  unfold Properties.trimPreG
  rw [if_neg hp]
  constructor
  · intro h
    by_cases hpre : (p ++ ['.']).isPrefixOf k
    · rw [if_pos hpre, Option.some_inj] at h
      obtain ⟨r, hr⟩ := List.isPrefixOf_iff_prefix.mp hpre
      have hd : k.drop (p ++ ['.']).length = r := by
        rw [← hr, List.drop_left]
      rw [hd] at h
      rw [← hr, ← h]
      simp
    · rw [if_neg hpre] at h
      exact absurd h (Option.noConfusion)
  · intro h
    subst h
    have hpre : (p ++ ['.']).isPrefixOf (p ++ '.' :: s) = true := by
      rw [List.isPrefixOf_iff_prefix]
      refine ⟨s, ?_⟩
      simp
    rw [if_pos hpre]
    have : (p ++ '.' :: s) = (p ++ ['.']) ++ s := by simp
    rw [this, List.drop_left]

theorem mem_group_aux (pre : Str) (l : List Str) :
    ∀ (acc : List Str) (g : Str),
      (g ∈ l.foldl (Properties.groupStep pre) acc) ↔
      (g ∈ acc ∨ ∃ k ∈ l, ∃ s, Properties.trimPreG k pre = some s ∧ g = firstSeg s) := by
  induction l with
  | nil => intro acc g; simp
  | cons k t ih =>
    intro acc g
    rw [List.foldl_cons]
    cases htr : Properties.trimPreG k pre with
    | none =>
      rw [Properties.groupStep_none pre acc k htr, ih]
      constructor
      · rintro (h | ⟨k', hk', s, hs, hg⟩)
        · exact Or.inl h
        · exact Or.inr ⟨k', List.mem_cons_of_mem k hk', s, hs, hg⟩
      · rintro (h | ⟨k', hk', s, hs, hg⟩)
        · exact Or.inl h
        · rcases List.mem_cons.mp hk' with h' | h'
          · subst h'
            rw [htr] at hs
            exact absurd hs Option.noConfusion
          · exact Or.inr ⟨k', h', s, hs, hg⟩
    | some s =>
      rw [Properties.groupStep_some pre acc k s htr]
      by_cases hmem : firstSeg s ∈ acc
      · rw [if_pos hmem, ih]
        constructor
        · rintro (h | ⟨k', hk', s', hs', hg⟩)
          · exact Or.inl h
          · exact Or.inr ⟨k', List.mem_cons_of_mem k hk', s', hs', hg⟩
        · rintro (h | ⟨k', hk', s', hs', hg⟩)
          · exact Or.inl h
          · rcases List.mem_cons.mp hk' with h' | h'
            · subst h'
              rw [htr, Option.some_inj] at hs'
              subst hs'
              subst hg
              exact Or.inl hmem
            · exact Or.inr ⟨k', h', s', hs', hg⟩
      · rw [if_neg hmem, ih]
        constructor
        · rintro (h | ⟨k', hk', s', hs', hg⟩)
          · rcases List.mem_append.mp h with h' | h'
            · exact Or.inl h'
            · rw [List.mem_singleton] at h'
              exact Or.inr ⟨k, List.mem_cons_self k t, s, htr, h'⟩
          · exact Or.inr ⟨k', List.mem_cons_of_mem k hk', s', hs', hg⟩
        · rintro (h | ⟨k', hk', s', hs', hg⟩)
          · exact Or.inl (List.mem_append_left _ h)
          · rcases List.mem_cons.mp hk' with h' | h'
            · subst h'
              rw [htr, Option.some_inj] at hs'
              subst hs'
              subst hg
              exact Or.inl (List.mem_append_right _ (List.mem_singleton_self _))
            · exact Or.inr ⟨k', h', s', hs', hg⟩

/-- Membership in `Group pre`: exactly the first segments of trimmed keys. -/
theorem mem_group_iff (st : Store) (pre g : Str) :
    g ∈ Properties.group st pre ↔
    ∃ k ∈ keysOf st, ∃ s, Properties.trimPreG k pre = some s ∧ g = firstSeg s := by
  rw [Properties.group, mem_group_aux pre (keysOf st) [] g]
  simp

/-- The default head of a nonempty list is a member. -/
theorem headI_mem_of_ne_nil {α : Type} [Inhabited α] (l : List α) (h : l ≠ []) :
    l.headI ∈ l := by
  cases l with
  | nil => exact absurd rfl h
  | cons a t => simp

/-- Right inverse of `joinDots` on nonempty lists of dot-free segments. -/
theorem splitOnDot_joinDots (l : List Str) (hne : l ≠ [])
    (hdf : ∀ x ∈ l, '.' ∉ x) : splitOnDot (joinDots l) = l := by
  induction l with
  | nil => exact absurd rfl hne
  | cons x t ih =>
    cases t with
    | nil =>
      show splitOnDot (joinDots [x]) = [x]
      rw [joinDots]
      exact splitOnDot_of_dotfree x (hdf x (List.mem_singleton_self x))
    | cons y s =>
      have hx : '.' ∉ x := hdf x (List.mem_cons_self _ _)
      have ht : ∀ z ∈ y :: s, '.' ∉ z := fun z hz => hdf z (List.mem_cons_of_mem x hz)
      show splitOnDot (x ++ '.' :: joinDots (y :: s)) = x :: y :: s
      rw [splitOnDot_append_dot, splitOnDot_of_dotfree x hx, ih (by simp) ht]
      rfl

/-- A string containing a dot is not the root marker `"$"`. -/
theorem ne_rootStr_of_dot_mem (x : Str) (h : '.' ∈ x) : x ≠ rootStr := by
  intro hx
  subst hx
  revert h
  decide

/-- The key-set antichain property: no stored key's segment list is a prefix
of another stored key's segment list. -/
def SegAntichain (ks : List Str) : Prop :=
  ∀ k ∈ ks, ∀ q ∈ ks, splitOnDot k <+: splitOnDot q → k = q

/-- Correctness of `recover` below a non-root prefix: with enough fuel, and
an antichain key set, recovery below `p` returns exactly the stored keys
whose segments extend `p`'s segments. -/
theorem recover_correct (st : Store) :
    ∀ (f : Nat) (p : Str), p ≠ rootStr →
    (∀ k ∈ keysOf st, splitOnDot p <+: splitOnDot k →
        (splitOnDot k).length < (splitOnDot p).length + f) →
    SegAntichain (keysOf st) →
    ∀ q, q ∈ recover st f p ↔ q ∈ keysOf st ∧ splitOnDot p <+: splitOnDot q := by
  intro f
  induction f with
  | zero =>
    intro p _ hb _ q
    simp only [recover, List.not_mem_nil, false_iff]
    rintro ⟨hq, hpre⟩
    have hlen := hb q hq hpre
    have hle := hpre.length_le
    omega
  | succ f ih =>
    intro p hp hb hA q
    by_cases hm : (lookupKV p st).isSome
    · have hpK : p ∈ keysOf st := by
        by_contra hc
        rw [← lookupKV_eq_none_iff] at hc
        rw [hc] at hm
        exact Bool.noConfusion hm
      simp only [recover, if_pos hm, List.mem_singleton]
      constructor
      · rintro rfl
        exact ⟨hpK, List.prefix_refl _⟩
      · rintro ⟨hq, hpre⟩
        exact (hA p hpK q hq hpre).symm
    · have hpK : p ∉ keysOf st := by
        rw [← lookupKV_eq_none_iff, ← Option.not_isSome_iff_eq_none] at *
        exact hm
      simp only [recover, if_neg hm, List.mem_flatMap]
      constructor
      · rintro ⟨g, hg, hq⟩
        rw [mem_group_iff] at hg
        obtain ⟨k, hk, sfx, htr, hgdef⟩ := hg
        rw [trimPreG_eq_some k p sfx hp] at htr
        have hgseg : g ∈ splitOnDot sfx := by
          rw [hgdef, firstSeg]
          exact headI_mem_of_ne_nil _ (splitOnDot_ne_nil sfx)
        have hgdf : '.' ∉ g := splitOnDot_dotfree sfx g hgseg
        have hjoin : joinKey p g = p ++ '.' :: g := if_neg hp
        have hpseg : splitOnDot (joinKey p g) = splitOnDot p ++ [g] := by
          rw [hjoin, splitOnDot_append_dot, splitOnDot_of_dotfree g hgdf]
        have hp2 : joinKey p g ≠ rootStr := by
          apply ne_rootStr_of_dot_mem
          rw [hjoin]
          exact List.mem_append_right p (List.mem_cons_self _ _)
        have hb2 : ∀ k₂ ∈ keysOf st, splitOnDot (joinKey p g) <+: splitOnDot k₂ →
            (splitOnDot k₂).length < (splitOnDot (joinKey p g)).length + f := by
          intro k₂ hk₂ hpre₂
          have hpk2 : splitOnDot p <+: splitOnDot k₂ := by
            refine List.IsPrefix.trans ?_ hpre₂
            rw [hpseg]
            exact List.prefix_append _ _
          have := hb k₂ hk₂ hpk2
          rw [hpseg, List.length_append, List.length_singleton]
          omega
        have hiff := ih (joinKey p g) hp2 hb2 hA q
        rw [hiff] at hq
        refine ⟨hq.1, ?_⟩
        refine List.IsPrefix.trans ?_ hq.2
        rw [hpseg]
        exact List.prefix_append _ _
      · rintro ⟨hq, hpre⟩
        have hne : splitOnDot p ≠ splitOnDot q := by
          intro h
          exact hpK (splitOnDot_inj h ▸ hq)
        obtain ⟨rest, hrest⟩ := hpre
        have hrne : rest ≠ [] := by
          rintro rfl
          rw [List.append_nil] at hrest
          exact hne hrest
        have hrdf : ∀ x ∈ rest, '.' ∉ x := by
          intro x hx
          refine splitOnDot_dotfree q x ?_
          rw [← hrest]
          exact List.mem_append_right _ hx
        have hsplit : splitOnDot (joinDots rest) = rest := splitOnDot_joinDots rest hrne hrdf
        have hkform : q = p ++ '.' :: joinDots rest := by
          have hja := joinDots_append (splitOnDot p) rest (splitOnDot_ne_nil p) hrne
          calc q = joinDots (splitOnDot q) := (joinDots_splitOnDot q).symm
            _ = joinDots (splitOnDot p ++ rest) := by rw [hrest]
            _ = joinDots (splitOnDot p) ++ '.' :: joinDots rest := hja
            _ = p ++ '.' :: joinDots rest := by rw [joinDots_splitOnDot]
        have hgmem : rest.headI ∈ Properties.group st p := by
          rw [mem_group_iff]
          refine ⟨q, hq, joinDots rest, (trimPreG_eq_some q p _ hp).mpr hkform, ?_⟩
          rw [firstSeg, hsplit]
        refine ⟨rest.headI, hgmem, ?_⟩
        have hgdf : '.' ∉ rest.headI := hrdf _ (headI_mem_of_ne_nil _ hrne)
        have hjoin : joinKey p rest.headI = p ++ '.' :: rest.headI := if_neg hp
        have hpseg : splitOnDot (joinKey p rest.headI) = splitOnDot p ++ [rest.headI] := by
          rw [hjoin, splitOnDot_append_dot, splitOnDot_of_dotfree _ hgdf]
        have hp2 : joinKey p rest.headI ≠ rootStr := by
          apply ne_rootStr_of_dot_mem
          rw [hjoin]
          exact List.mem_append_right p (List.mem_cons_self _ _)
        have hb2 : ∀ k₂ ∈ keysOf st, splitOnDot (joinKey p rest.headI) <+: splitOnDot k₂ →
            (splitOnDot k₂).length < (splitOnDot (joinKey p rest.headI)).length + f := by
          intro k₂ hk₂ hpre₂
          have hpp : splitOnDot p <+: splitOnDot k₂ := by
            refine List.IsPrefix.trans ?_ hpre₂
            rw [hpseg]
            exact List.prefix_append _ _
          have := hb k₂ hk₂ hpp
          rw [hpseg, List.length_append, List.length_singleton]
          omega
        rw [ih (joinKey p rest.headI) hp2 hb2 hA q]
        refine ⟨hq, ?_⟩
        rw [hpseg, ← hrest]
        refine ⟨rest.tail, ?_⟩
        rw [List.append_assoc]
        congr 1
        cases rest with
        | nil => exact absurd rfl hrne
        | cons a r => simp

/-- Correctness of `recoverAll`: with enough fuel and an antichain key set
none of whose keys has first segment `"$"`, reconstruction from the root
recovers exactly the stored keys. -/
theorem recoverAll_correct (st : Store) (f : Nat)
    (hroot : ∀ k ∈ keysOf st, firstSeg k ≠ rootStr)
    (hdepth : ∀ k ∈ keysOf st, (splitOnDot k).length ≤ f)
    (hA : SegAntichain (keysOf st)) :
    ∀ q, q ∈ recoverAll st (f + 1) ↔ q ∈ keysOf st := by
  intro q
  have hrootK : rootStr ∉ keysOf st := by
    intro h
    have := hroot rootStr h
    apply this
    decide
  have hm : (lookupKV rootStr st).isSome = false := by
    rw [← lookupKV_eq_none_iff] at hrootK
    rw [hrootK]
    rfl
  rw [recoverAll]
  simp only [recover, hm, Bool.false_eq_true, if_false, List.mem_flatMap]
  constructor
  · rintro ⟨g, hg, hq⟩
    rw [mem_group_iff] at hg
    obtain ⟨k, hk, s, htr, hgdef⟩ := hg
    rw [trimPreG_root k, Option.some_inj] at htr
    subst htr
    have hgk : joinKey rootStr g = g := if_pos rfl
    have hgne : g ≠ rootStr := by
      rw [hgdef]
      exact hroot k hk
    have hgdf : '.' ∉ g := by
      rw [hgdef, firstSeg]
      exact splitOnDot_dotfree k _ (headI_mem_of_ne_nil _ (splitOnDot_ne_nil k))
    have hgseg : splitOnDot g = [g] := splitOnDot_of_dotfree g hgdf
    have hb2 : ∀ k₂ ∈ keysOf st, splitOnDot g <+: splitOnDot k₂ →
        (splitOnDot k₂).length < (splitOnDot g).length + f := by
      intro k₂ hk₂ _
      have := hdepth k₂ hk₂
      rw [hgseg, List.length_singleton]
      have h1 : 1 ≤ (splitOnDot k₂).length := by
        have := splitOnDot_ne_nil k₂
        cases hsp : splitOnDot k₂ with
        | nil => exact absurd hsp this
        | cons a r => simp
      omega
    rw [hgk] at hq
    exact ((recover_correct st f g hgne hb2 hA q).mp hq).1
  · intro hq
    refine ⟨firstSeg q, ?_, ?_⟩
    · rw [mem_group_iff]
      exact ⟨q, hq, q, trimPreG_root q, rfl⟩
    · have hgne : firstSeg q ≠ rootStr := hroot q hq
      have hgdf : '.' ∉ firstSeg q := by
        rw [firstSeg]
        exact splitOnDot_dotfree q _ (headI_mem_of_ne_nil _ (splitOnDot_ne_nil q))
      have hgseg : splitOnDot (firstSeg q) = [firstSeg q] :=
        splitOnDot_of_dotfree _ hgdf
      have hb2 : ∀ k₂ ∈ keysOf st, splitOnDot (firstSeg q) <+: splitOnDot k₂ →
          (splitOnDot k₂).length < (splitOnDot (firstSeg q)).length + f := by
        intro k₂ hk₂ _
        have := hdepth k₂ hk₂
        rw [hgseg, List.length_singleton]
        have h1 : 1 ≤ (splitOnDot k₂).length := by
          have hnn := splitOnDot_ne_nil k₂
          cases hsp : splitOnDot k₂ with
          | nil => exact absurd hsp hnn
          | cons a r => simp
        omega
      have hgk : joinKey rootStr (firstSeg q) = firstSeg q := if_pos rfl
      rw [hgk, recover_correct st f (firstSeg q) hgne hb2 hA q]
      refine ⟨hq, ?_⟩
      rw [hgseg, firstSeg]
      cases hsp : splitOnDot q with
      | nil => exact absurd hsp (splitOnDot_ne_nil q)
      | cons a r =>
        simp only [List.headI]
        exact ⟨r, rfl⟩

/-! ### Decimal rendering facts (for the `key[i]` index extensions) -/

/-- The decimal digit characters. -/
def digitChars : Str := str "0123456789"

theorem digCh_mem (m : Nat) (h : m < 10) : digCh m ∈ digitChars := by
  interval_cases m <;> decide

/-- Digit value of a digit character. -/
def dVal (c : Char) : Nat := c.toNat - 48

theorem dVal_digCh (m : Nat) (h : m < 10) : dVal (digCh m) = m := by
  interval_cases m <;> decide

/-- Decimal digit-string value, the left inverse of `natChars`. -/
def valNat (l : Str) : Nat := l.foldl (fun a c => a * 10 + dVal c) 0

theorem valNat_append_one (a : Str) (c : Char) :
    valNat (a ++ [c]) = valNat a * 10 + dVal c := by
  simp [valNat, List.foldl_append]

theorem natChars_lt (n : Nat) (h : n < 10) : natChars n = [digCh n] := by
  simp [natChars, natCharsCore, h]

theorem natCharsCore_eq (n : Nat) : ∀ (f : Nat) (acc : Str), n < f →
    natCharsCore f n acc = natChars n ++ acc := by
  induction n using Nat.strong_induction_on with
  | _ n ih =>
    intro f acc hf
    cases f with
    | zero => omega
    | succ f =>
      by_cases h10 : n < 10
      · show (if n < 10 then digCh n :: acc
            else natCharsCore f (n / 10) (digCh (n % 10) :: acc)) = natChars n ++ acc
        rw [if_pos h10, natChars_lt n h10]
        rfl
      · have hdiv : n / 10 < n := Nat.div_lt_self (by omega) (by omega)
        have hrec : natChars n = natChars (n / 10) ++ [digCh (n % 10)] := by
          show (if n < 10 then digCh n :: ([] : Str)
              else natCharsCore n (n / 10) (digCh (n % 10) :: [])) = _
          rw [if_neg h10, ih (n / 10) hdiv n (digCh (n % 10) :: []) hdiv]
        show (if n < 10 then digCh n :: acc
            else natCharsCore f (n / 10) (digCh (n % 10) :: acc)) = natChars n ++ acc
        rw [if_neg h10, ih (n / 10) hdiv f (digCh (n % 10) :: acc) (by omega),
          hrec, List.append_assoc]
        rfl

theorem natChars_ge (n : Nat) (h : 10 ≤ n) :
    natChars n = natChars (n / 10) ++ [digCh (n % 10)] := by
  have hdiv : n / 10 < n := Nat.div_lt_self (by omega) (by omega)
  show (if n < 10 then digCh n :: ([] : Str)
      else natCharsCore n (n / 10) (digCh (n % 10) :: [])) = _
  rw [if_neg (by omega), natCharsCore_eq (n / 10) n (digCh (n % 10) :: []) hdiv]

theorem valNat_natChars (n : Nat) : valNat (natChars n) = n := by
  induction n using Nat.strong_induction_on with
  | _ n ih =>
    by_cases h10 : n < 10
    · rw [natChars_lt n h10]
      show valNat ([] ++ [digCh n]) = n
      rw [valNat_append_one]
      simp [valNat, dVal_digCh n h10]
    · have hdiv : n / 10 < n := Nat.div_lt_self (by omega) (by omega)
      rw [natChars_ge n (by omega), valNat_append_one, ih (n / 10) hdiv,
        dVal_digCh (n % 10) (Nat.mod_lt _ (by omega))]
      omega

theorem natChars_inj {a b : Nat} (h : natChars a = natChars b) : a = b := by
  have := congrArg valNat h
  rwa [valNat_natChars, valNat_natChars] at this

theorem natChars_digits (n : Nat) : ∀ c ∈ natChars n, c ∈ digitChars := by
  induction n using Nat.strong_induction_on with
  | _ n ih =>
    intro c hc
    by_cases h10 : n < 10
    · rw [natChars_lt n h10, List.mem_singleton] at hc
      exact hc ▸ digCh_mem n h10
    · have hdiv : n / 10 < n := Nat.div_lt_self (by omega) (by omega)
      rw [natChars_ge n (by omega), List.mem_append] at hc
      rcases hc with hc | hc
      · exact ih (n / 10) hdiv c hc
      · rw [List.mem_singleton] at hc
        exact hc ▸ digCh_mem (n % 10) (Nat.mod_lt _ (by omega))

theorem natChars_no_dot (n : Nat) : '.' ∉ natChars n := by
  intro h
  have := natChars_digits n '.' h
  revert this
  decide

theorem natChars_no_lbrack (n : Nat) : '[' ∉ natChars n := by
  intro h
  have := natChars_digits n '[' h
  revert this
  decide

theorem natChars_no_rbrack (n : Nat) : ']' ∉ natChars n := by
  intro h
  have := natChars_digits n ']' h
  revert this
  decide

/-! ### Cancellation lemmas for key-segment strings -/

/-- Splitting an append at a separator character absent from both prefixes. -/
theorem append_sep_cancel (sep : Char) :
    ∀ (a b x y : Str), sep ∉ a → sep ∉ b → a ++ sep :: x = b ++ sep :: y →
    a = b ∧ x = y := by
  intro a
  induction a with
  | nil =>
    intro b x y _ hb h
    cases b with
    | nil =>
      simp only [List.nil_append, List.cons.injEq] at h
      exact ⟨rfl, h.2⟩
    | cons d b' =>
      simp only [List.nil_append, List.cons_append, List.cons.injEq] at h
      refine absurd ?_ hb
      rw [← h.1]
      exact List.mem_cons_self _ _
  | cons c a' ih =>
    intro b x y ha hb h
    cases b with
    | nil =>
      simp only [List.cons_append, List.nil_append, List.cons.injEq] at h
      refine absurd ?_ ha
      rw [h.1]
      exact List.mem_cons_self _ _
    | cons d b' =>
      simp only [List.cons_append, List.cons.injEq] at h
      obtain ⟨hcd, htl⟩ := h
      have ha' : sep ∉ a' := fun hm => ha (List.mem_cons_of_mem c hm)
      have hb' : sep ∉ b' := fun hm => hb (List.mem_cons_of_mem d hm)
      obtain ⟨he, hxy⟩ := ih b' x y ha' hb' htl
      exact ⟨by rw [hcd, he], hxy⟩

/-- An index extension determines its index and the remaining brackets. -/
theorem brak_cancel (i j : Nat) (b₁ b₂ : Str) (h : brak i ++ b₁ = brak j ++ b₂) :
    i = j ∧ b₁ = b₂ := by
  have h' : natChars i ++ ']' :: b₁ = natChars j ++ ']' :: b₂ := by
    have := h
    simp only [brak, List.cons_append, List.append_assoc, List.singleton_append,
      List.cons.injEq] at this
    exact this.2
  obtain ⟨hn, hb⟩ := append_sep_cancel ']' (natChars i) (natChars j) b₁ b₂
    (natChars_no_rbrack i) (natChars_no_rbrack j) h'
  exact ⟨natChars_inj hn, hb⟩

/-- A bracket-extension string: empty or starting with `'['`. -/
def BrackStart (b : Str) : Prop := b = [] ∨ ∃ r, b = '[' :: r

/-- A field name free of `'['` followed by a bracket extension determines
both parts. -/
theorem name_brack_cancel :
    ∀ (f g b₁ b₂ : Str), '[' ∉ f → '[' ∉ g → BrackStart b₁ → BrackStart b₂ →
    f ++ b₁ = g ++ b₂ → f = g ∧ b₁ = b₂ := by
  intro f
  induction f with
  | nil =>
    intro g b₁ b₂ _ hg h₁ _ h
    cases g with
    | nil => exact ⟨rfl, h⟩
    | cons d g' =>
      rw [List.nil_append] at h
      rcases h₁ with h₁ | ⟨r, h₁⟩
      · rw [h₁] at h
        exact absurd h.symm (by simp)
      · rw [h₁, List.cons_append] at h
        have : d = '[' := (List.cons.injEq _ _ _ _ ▸ h).1.symm
        exact absurd (this ▸ List.mem_cons_self d g') hg
  | cons c f' ih =>
    intro g b₁ b₂ hf hg h₁ h₂ h
    cases g with
    | nil =>
      rw [List.nil_append] at h
      rcases h₂ with h₂ | ⟨r, h₂⟩
      · rw [h₂] at h
        exact absurd h (by simp)
      · rw [h₂, List.cons_append] at h
        have : c = '[' := (List.cons.injEq _ _ _ _ ▸ h).1
        exact absurd (this ▸ List.mem_cons_self c f') hf
    | cons d g' =>
      simp only [List.cons_append, List.cons.injEq] at h
      obtain ⟨hcd, htl⟩ := h
      have hf' : '[' ∉ f' := fun hm => hf (List.mem_cons_of_mem c hm)
      have hg' : '[' ∉ g' := fun hm => hg (List.mem_cons_of_mem d hm)
      obtain ⟨he, hb⟩ := ih g' b₁ b₂ hf' hg' h₁ h₂ htl
      exact ⟨by rw [hcd, he], hb⟩

/-! ### Leaf extensions of a value

A leaf of the flattening of `v` below `key` has key
`key ++ β ++ ".γ₁.γ₂…"` where `β` is a bracket extension of `key`'s last
dot-segment (from enclosing sequences) and the `γᵢ` are the later
dot-segments (each a field name followed by its own bracket extension).
`leafExts` computes these `(β, γ)` descriptors; they drive the antichain
argument for the round-trip claim. -/

/-- A leaf-key extension: bracket part for the current segment, then later
segments. -/
abbrev Ext := Str × List Str

/-- Dot-prefixed concatenation of the later segments. -/
def dotsCat (g : List Str) : Str := g.foldr (fun x acc => ('.' :: x) ++ acc) []

/-- The leaf key obtained by applying an extension to a base key. -/
def applyExt (key : Str) (e : Ext) : Str := key ++ e.1 ++ dotsCat e.2

mutual
/-- Leaf extensions of a value. -/
def leafExts : GoVal → List Ext
  | .vStr _ => [([], [])]
  | .vInt _ => [([], [])]
  | .vBool _ => [([], [])]
  | .vMap fs => leafExtsF fs
  | .vSeq es => leafExtsE 0 es
termination_by structural v => v

/-- Leaf extensions contributed by record fields. -/
def leafExtsF : GoFields → List Ext
  | .nil => []
  | .cons f w t =>
    (leafExts w).map (fun e => (([] : Str), (f ++ e.1) :: e.2)) ++ leafExtsF t
termination_by structural fs => fs

/-- Leaf extensions contributed by sequence elements, from index `i`. -/
def leafExtsE : Nat → GoElems → List Ext
  | _, .nil => []
  | i, .cons w t =>
    (leafExts w).map (fun e => (brak i ++ e.1, e.2)) ++ leafExtsE (i + 1) t
termination_by structural _ es => es
end

/-- The flattening's keys are exactly the applied leaf extensions. -/
theorem flatten_keys_all :
    (∀ v : GoVal, ∀ key : Str,
      (specFlatten key v).map Prod.fst = (leafExts v).map (applyExt key)) ∧
    (∀ fs : GoFields, ∀ key : Str,
      (specFlattenFields key fs).map Prod.fst = (leafExtsF fs).map (applyExt key)) ∧
    (∀ es : GoElems, ∀ key : Str, ∀ i : Nat,
      (specFlattenElems key i es).map Prod.fst = (leafExtsE i es).map (applyExt key)) := by
  have hfield : ∀ (key f : Str) (e : Ext),
      applyExt (key ++ '.' :: f) e = applyExt key ([], (f ++ e.1) :: e.2) := by
    intro key f e
    simp [applyExt, dotsCat, List.append_assoc]
  have helem : ∀ (key : Str) (i : Nat) (e : Ext),
      applyExt (key ++ brak i) e = applyExt key (brak i ++ e.1, e.2) := by
    intro key i e
    simp [applyExt, List.append_assoc]
  refine goVal_mutual_ind
    (fun v => ∀ key, (specFlatten key v).map Prod.fst = (leafExts v).map (applyExt key))
    (fun fs => ∀ key, (specFlattenFields key fs).map Prod.fst = (leafExtsF fs).map (applyExt key))
    (fun es => ∀ key i, (specFlattenElems key i es).map Prod.fst = (leafExtsE i es).map (applyExt key))
    ?_ ?_ ?_ ?_ ?_ ?_ ?_ ?_ ?_
  · intro s key; simp [specFlatten, leafExts, applyExt, dotsCat]
  · intro n key; simp [specFlatten, leafExts, applyExt, dotsCat]
  · intro b key; simp [specFlatten, leafExts, applyExt, dotsCat]
  · intro fs ih key; exact ih key
  · intro es ih key; exact ih key 0
  · intro key; rfl
  · intro f w t ihw iht key
    show (specFlatten (key ++ '.' :: f) w ++ specFlattenFields key t).map Prod.fst = _
    rw [List.map_append, ihw (key ++ '.' :: f), iht key]
    show _ = ((leafExts w).map (fun e => (([] : Str), (f ++ e.1) :: e.2))
        ++ leafExtsF t).map (applyExt key)
    rw [List.map_append, List.map_map]
    congr 1
    refine List.map_congr_left ?_
    intro e _
    exact hfield key f e
  · intro key i; rfl
  · intro w t ihw iht key i
    show (specFlatten (key ++ brak i) w ++ specFlattenElems key (i + 1) t).map Prod.fst = _
    rw [List.map_append, ihw (key ++ brak i), iht key (i + 1)]
    show _ = ((leafExts w).map (fun e => (brak i ++ e.1, e.2))
        ++ leafExtsE (i + 1) t).map (applyExt key)
    rw [List.map_append, List.map_map]
    congr 1
    refine List.map_congr_left ?_
    intro e _
    exact helem key i e

/-! ### Well-formed values: the amended round-trip hypothesis -/

/-- Membership test used by the goodness checks. -/
def hasCh (c : Char) (s : Str) : Bool := s.any (fun d => d == c)

theorem hasCh_eq_false_iff (c : Char) (s : Str) : hasCh c s = false ↔ c ∉ s := by
  rw [hasCh, ← Bool.not_eq_true, List.any_eq_true]
  simp

/-- The names of a record's fields, in order. -/
def fieldNames : GoFields → List Str
  | .nil => []
  | .cons f _ t => f :: fieldNames t

/-- Membership test for names. -/
def hasStr (x : Str) (l : List Str) : Bool := l.any (fun y => y == x)

theorem hasStr_eq_false_iff (x : Str) (l : List Str) : hasStr x l = false ↔ x ∉ l := by
  rw [hasStr, ← Bool.not_eq_true, List.any_eq_true]
  simp

/-- Duplicate-freedom of a list of names. -/
def nodupB : List Str → Bool
  | [] => true
  | x :: t => !(hasStr x t) && nodupB t

mutual
/-- A value is good when every record field name contains neither `'.'` nor
`'['` and field names are duplicate-free within each record. -/
def goodVal : GoVal → Bool
  | .vStr _ => true
  | .vInt _ => true
  | .vBool _ => true
  | .vMap fs => goodFields fs && nodupB (fieldNames fs)
  | .vSeq es => goodElems es
termination_by structural v => v

/-- Goodness of a record's fields. -/
def goodFields : GoFields → Bool
  | .nil => true
  | .cons f w t => !(hasCh '.' f) && !(hasCh '[' f) && goodVal w && goodFields t
termination_by structural fs => fs

/-- Goodness of a sequence's elements. -/
def goodElems : GoElems → Bool
  | .nil => true
  | .cons w t => goodVal w && goodElems t
termination_by structural es => es
end

/-! ### Good values yield incomparable leaf extensions -/

/-- Well-formedness of a leaf extension: the bracket part is dot-free and
bracket-initial; every later segment is dot-free. -/
def ExtGood (e : Ext) : Prop :=
  '.' ∉ e.1 ∧ BrackStart e.1 ∧ ∀ g ∈ e.2, '.' ∉ g

/-- One extension extends another (the key of the first is a dot-boundary
prefix of the key of the second, over a shared base key). -/
def extLe (e₁ e₂ : Ext) : Prop := e₁.1 = e₂.1 ∧ e₁.2 <+: e₂.2

/-- Two extensions are incomparable. -/
def extIncomp (e₁ e₂ : Ext) : Prop := ¬ extLe e₁ e₂ ∧ ¬ extLe e₂ e₁

theorem dot_not_mem_brak (i : Nat) : '.' ∉ brak i := by
  intro h
  rw [brak] at h
  rcases List.mem_cons.mp h with h | h
  · exact absurd h (by decide)
  · rcases List.mem_append.mp h with h | h
    · exact natChars_no_dot i h
    · rw [List.mem_singleton] at h
      exact absurd h (by decide)

/-- All leaf extensions of a good value are well formed. -/
theorem extGood_all :
    (∀ v : GoVal, goodVal v = true → ∀ e ∈ leafExts v, ExtGood e) ∧
    (∀ fs : GoFields, goodFields fs = true → ∀ e ∈ leafExtsF fs, ExtGood e) ∧
    (∀ es : GoElems, goodElems es = true → ∀ i : Nat, ∀ e ∈ leafExtsE i es, ExtGood e) := by
  refine goVal_mutual_ind
    (fun v => goodVal v = true → ∀ e ∈ leafExts v, ExtGood e)
    (fun fs => goodFields fs = true → ∀ e ∈ leafExtsF fs, ExtGood e)
    (fun es => goodElems es = true → ∀ i : Nat, ∀ e ∈ leafExtsE i es, ExtGood e)
    ?_ ?_ ?_ ?_ ?_ ?_ ?_ ?_ ?_
  · intro s _ e he
    rw [leafExts, List.mem_singleton] at he
    subst he
    exact ⟨by simp, Or.inl rfl, by simp⟩
  · intro n _ e he
    rw [leafExts, List.mem_singleton] at he
    subst he
    exact ⟨by simp, Or.inl rfl, by simp⟩
  · intro b _ e he
    rw [leafExts, List.mem_singleton] at he
    subst he
    exact ⟨by simp, Or.inl rfl, by simp⟩
  · intro fs ih hg e he
    rw [goodVal, Bool.and_eq_true] at hg
    exact ih hg.1 e he
  · intro es ih hg e he
    exact ih (by rwa [goodVal] at hg) 0 e he
  · intro _ e he
    rw [leafExtsF] at he
    exact absurd he (List.not_mem_nil e)
  · intro f w t ihw iht hg e he
    rw [goodFields, Bool.and_eq_true, Bool.and_eq_true, Bool.and_eq_true,
      Bool.not_eq_true', Bool.not_eq_true'] at hg
    obtain ⟨⟨⟨hdot, hbr⟩, hw⟩, ht⟩ := hg
    rw [hasCh_eq_false_iff] at hdot hbr
    rw [leafExtsF, List.mem_append] at he
    rcases he with he | he
    · obtain ⟨e', he', hee⟩ := List.mem_map.mp he
      obtain ⟨hd', hb', hg'⟩ := ihw hw e' he'
      subst hee
      refine ⟨by simp, Or.inl rfl, ?_⟩
      intro g hgm
      rcases List.mem_cons.mp hgm with hgm | hgm
      · subst hgm
        intro hdm
        rcases List.mem_append.mp hdm with hdm | hdm
        · exact hdot hdm
        · exact hd' hdm
      · exact hg' g hgm
    · exact iht ht e he
  · intro _ _ e he
    rw [leafExtsE] at he
    exact absurd he (List.not_mem_nil e)
  · intro w t ihw iht hg i e he
    rw [goodElems, Bool.and_eq_true] at hg
    rw [leafExtsE, List.mem_append] at he
    rcases he with he | he
    · obtain ⟨e', he', hee⟩ := List.mem_map.mp he
      obtain ⟨hd', hb', hg'⟩ := ihw hg.1 e' he'
      subst hee
      refine ⟨?_, ?_, hg'⟩
      · intro hdm
        rcases List.mem_append.mp hdm with hdm | hdm
        · exact dot_not_mem_brak i hdm
        · exact hd' hdm
      · exact Or.inr ⟨natChars i ++ ']' :: e'.1, by simp [brak]⟩
    · exact iht hg.2 (i + 1) e he

/-- Dot- and bracket-freedom of all field names of a good record. -/
theorem fieldNames_good (fs : GoFields) (hg : goodFields fs = true) :
    ∀ f ∈ fieldNames fs, '.' ∉ f ∧ '[' ∉ f := by
  refine (goVal_mutual_ind (fun _ => True)
    (fun fs => goodFields fs = true → ∀ f ∈ fieldNames fs, '.' ∉ f ∧ '[' ∉ f)
    (fun _ => True)
    (fun _ => trivial) (fun _ => trivial) (fun _ => trivial)
    (fun _ _ => trivial) (fun _ _ => trivial)
    ?_ ?_ trivial (fun _ _ _ _ => trivial)).2.1 fs hg
  · intro _ f hf
    exact absurd hf (List.not_mem_nil f)
  · intro f w t _ ih hgc
    rw [goodFields, Bool.and_eq_true, Bool.and_eq_true, Bool.and_eq_true,
      Bool.not_eq_true', Bool.not_eq_true'] at hgc
    obtain ⟨⟨⟨hdot, hbr⟩, _⟩, ht⟩ := hgc
    intro g hgm
    rcases List.mem_cons.mp hgm with hgm | hgm
    · subst hgm
      exact ⟨(hasCh_eq_false_iff _ _).mp hdot, (hasCh_eq_false_iff _ _).mp hbr⟩
    · exact ih ht g hgm

/-- Shape of field-contributed extensions: bracket part empty, first later
segment a field name followed by a bracket extension. -/
theorem leafExtsF_shape (fs : GoFields) (hg : goodFields fs = true) :
    ∀ e ∈ leafExtsF fs, ∃ f ∈ fieldNames fs, ∃ b g,
      e = (([] : Str), (f ++ b) :: g) ∧ BrackStart b := by
  refine (goVal_mutual_ind (fun _ => True)
    (fun fs => goodFields fs = true → ∀ e ∈ leafExtsF fs, ∃ f ∈ fieldNames fs, ∃ b g,
      e = (([] : Str), (f ++ b) :: g) ∧ BrackStart b)
    (fun _ => True)
    (fun _ => trivial) (fun _ => trivial) (fun _ => trivial)
    (fun _ _ => trivial) (fun _ _ => trivial)
    ?_ ?_ trivial (fun _ _ _ _ => trivial)).2.1 fs hg
  · intro _ e he
    exact absurd he (List.not_mem_nil e)
  · intro f w t _ ih hgc
    rw [goodFields, Bool.and_eq_true, Bool.and_eq_true, Bool.and_eq_true] at hgc
    obtain ⟨⟨_, hw⟩, ht⟩ := hgc
    intro e he
    rw [leafExtsF, List.mem_append] at he
    rcases he with he | he
    · obtain ⟨e', he', hee⟩ := List.mem_map.mp he
      obtain ⟨_, hb', _⟩ := extGood_all.1 w hw e' he'
      exact ⟨f, List.mem_cons_self f _, e'.1, e'.2, hee.symm, hb'⟩
    · obtain ⟨g, hgm, b, γ, hee, hb⟩ := ih ht e he
      exact ⟨g, List.mem_cons_of_mem f hgm, b, γ, hee, hb⟩

/-- Shape of element-contributed extensions: bracket part starts with the
element's index extension. -/
theorem leafExtsE_shape (es : GoElems) (hg : goodElems es = true) :
    ∀ i : Nat, ∀ e ∈ leafExtsE i es, ∃ j, i ≤ j ∧ ∃ b g,
      e = (brak j ++ b, g) ∧ BrackStart b := by
  refine (goVal_mutual_ind (fun _ => True) (fun _ => True)
    (fun es => goodElems es = true → ∀ i : Nat, ∀ e ∈ leafExtsE i es, ∃ j, i ≤ j ∧ ∃ b g,
      e = (brak j ++ b, g) ∧ BrackStart b)
    (fun _ => trivial) (fun _ => trivial) (fun _ => trivial)
    (fun _ _ => trivial) (fun _ _ => trivial)
    trivial (fun _ _ _ _ _ => trivial) ?_ ?_).2.2 es hg
  · intro _ i e he
    exact absurd he (List.not_mem_nil e)
  · intro w t _ ih hgc i e he
    rw [goodElems, Bool.and_eq_true] at hgc
    rw [leafExtsE, List.mem_append] at he
    rcases he with he | he
    · obtain ⟨e', he', hee⟩ := List.mem_map.mp he
      obtain ⟨_, hb', _⟩ := extGood_all.1 w hgc.1 e' he'
      exact ⟨i, Nat.le_refl i, e'.1, e'.2, hee.symm, hb'⟩
    · obtain ⟨j, hij, b, γ, hee, hb⟩ := ih hgc.2 (i + 1) e he
      exact ⟨j, by omega, b, γ, hee, hb⟩

theorem fieldExt_not_le (f g b₁ b₂ : Str) (g₁ g₂ : List Str)
    (hne : f ≠ g) (hf : '[' ∉ f) (hgb : '[' ∉ g)
    (h₁ : BrackStart b₁) (h₂ : BrackStart b₂) :
    ¬ extLe (([] : Str), (f ++ b₁) :: g₁) (([] : Str), (g ++ b₂) :: g₂) := by
  rintro ⟨-, hpre⟩
  rw [List.cons_prefix_cons] at hpre
  exact hne (name_brack_cancel f g b₁ b₂ hf hgb h₁ h₂ hpre.1).1

theorem elemExt_not_le (i j : Nat) (b₁ b₂ : Str) (g₁ g₂ : List Str) (hne : i ≠ j) :
    ¬ extLe (brak i ++ b₁, g₁) (brak j ++ b₂, g₂) := by
  rintro ⟨h1, -⟩
  exact hne (brak_cancel i j b₁ b₂ h1).1

theorem extLe_wrapF_iff (f : Str) (e₁ e₂ : Ext) :
    extLe (([] : Str), (f ++ e₁.1) :: e₁.2) (([] : Str), (f ++ e₂.1) :: e₂.2) ↔
    extLe e₁ e₂ := by
  unfold extLe
  rw [List.cons_prefix_cons]
  constructor
  · rintro ⟨-, hfe, hpre⟩
    exact ⟨List.append_cancel_left hfe, hpre⟩
  · rintro ⟨h1, h2⟩
    exact ⟨rfl, by rw [h1], h2⟩

theorem extLe_wrapE_iff (i : Nat) (e₁ e₂ : Ext) :
    extLe (brak i ++ e₁.1, e₁.2) (brak i ++ e₂.1, e₂.2) ↔ extLe e₁ e₂ := by
  unfold extLe
  constructor
  · rintro ⟨h1, h2⟩
    exact ⟨List.append_cancel_left h1, h2⟩
  · rintro ⟨h1, h2⟩
    exact ⟨by rw [h1], h2⟩

/-- Leaf extensions of a good value are pairwise incomparable. -/
theorem pairwise_incomp_all :
    (∀ v : GoVal, goodVal v = true → (leafExts v).Pairwise extIncomp) ∧
    (∀ fs : GoFields, goodFields fs = true → nodupB (fieldNames fs) = true →
      (leafExtsF fs).Pairwise extIncomp) ∧
    (∀ es : GoElems, goodElems es = true → ∀ i : Nat,
      (leafExtsE i es).Pairwise extIncomp) := by
  refine goVal_mutual_ind
    (fun v => goodVal v = true → (leafExts v).Pairwise extIncomp)
    (fun fs => goodFields fs = true → nodupB (fieldNames fs) = true →
      (leafExtsF fs).Pairwise extIncomp)
    (fun es => goodElems es = true → ∀ i : Nat, (leafExtsE i es).Pairwise extIncomp)
    ?_ ?_ ?_ ?_ ?_ ?_ ?_ ?_ ?_
  · intro s _
    rw [leafExts]
    exact List.pairwise_singleton _ _
  · intro n _
    rw [leafExts]
    exact List.pairwise_singleton _ _
  · intro b _
    rw [leafExts]
    exact List.pairwise_singleton _ _
  · intro fs ih hg
    rw [goodVal, Bool.and_eq_true] at hg
    exact ih hg.1 hg.2
  · intro es ih hg
    exact ih (by rwa [goodVal] at hg) 0
  · intro _ _
    rw [leafExtsF]
    exact List.Pairwise.nil
  · intro f w t ihw iht hg hnd
    have hgc := hg
    rw [goodFields, Bool.and_eq_true, Bool.and_eq_true, Bool.and_eq_true] at hgc
    obtain ⟨⟨⟨_, _⟩, hw⟩, ht⟩ := hgc
    have hfgood := fieldNames_good (.cons f w t) hg f (List.mem_cons_self f _)
    rw [fieldNames, nodupB, Bool.and_eq_true, Bool.not_eq_true'] at hnd
    obtain ⟨hfnew, hndt⟩ := hnd
    rw [hasStr_eq_false_iff] at hfnew
    rw [leafExtsF, List.pairwise_append]
    refine ⟨?_, iht ht hndt, ?_⟩
    · rw [List.pairwise_map]
      refine (ihw hw).imp ?_
      intro e₁ e₂ h
      exact ⟨fun hc => h.1 ((extLe_wrapF_iff f e₁ e₂).mp hc),
             fun hc => h.2 ((extLe_wrapF_iff f e₂ e₁).mp hc)⟩
    · intro e₁ he₁ e₂ he₂
      obtain ⟨e', he', hee⟩ := List.mem_map.mp he₁
      obtain ⟨g, hgm, b₂, γ₂, hee₂, hb₂⟩ := leafExtsF_shape t ht e₂ he₂
      obtain ⟨_, hb₁, _⟩ := extGood_all.1 w hw e' he'
      have hne : f ≠ g := fun hc => hfnew (hc ▸ hgm)
      have hggood := fieldNames_good t ht g hgm
      subst hee
      subst hee₂
      exact ⟨fieldExt_not_le f g e'.1 b₂ e'.2 γ₂ hne hfgood.2 hggood.2 hb₁ hb₂,
             fieldExt_not_le g f b₂ e'.1 γ₂ e'.2 (Ne.symm hne) hggood.2 hfgood.2 hb₂ hb₁⟩
  · intro _ _
    rw [leafExtsE]
    exact List.Pairwise.nil
  · intro w t ihw iht hg i
    rw [goodElems, Bool.and_eq_true] at hg
    rw [leafExtsE, List.pairwise_append]
    refine ⟨?_, iht hg.2 (i + 1), ?_⟩
    · rw [List.pairwise_map]
      refine (ihw hg.1).imp ?_
      intro e₁ e₂ h
      exact ⟨fun hc => h.1 ((extLe_wrapE_iff i e₁ e₂).mp hc),
             fun hc => h.2 ((extLe_wrapE_iff i e₂ e₁).mp hc)⟩
    · intro e₁ he₁ e₂ he₂
      obtain ⟨e', he', hee⟩ := List.mem_map.mp he₁
      obtain ⟨j, hij, b₂, γ₂, hee₂, hb₂⟩ := leafExtsE_shape t hg.2 (i + 1) e₂ he₂
      have hne : i ≠ j := by omega
      subst hee
      subst hee₂
      exact ⟨elemExt_not_le i j e'.1 b₂ e'.2 γ₂ hne,
             elemExt_not_le j i b₂ e'.1 γ₂ e'.2 (Ne.symm hne)⟩

/-! ### Segment structure of applied extensions -/

/-- Appends `b` to the last element of a segment list. -/
def modLast (b : Str) : List Str → List Str
  | [] => [b]
  | [x] => [x ++ b]
  | x :: y :: t => x :: modLast b (y :: t)

theorem modLast_ne_nil (b : Str) (l : List Str) : modLast b l ≠ [] := by
  cases l with
  | nil => simp [modLast]
  | cons x t =>
    cases t with
    | nil => simp [modLast]
    | cons y s => simp [modLast]

theorem modLast_length (b : Str) (l : List Str) (h : l ≠ []) :
    (modLast b l).length = l.length := by
  induction l with
  | nil => exact absurd rfl h
  | cons x t ih =>
    cases t with
    | nil => simp [modLast]
    | cons y s =>
      show (x :: modLast b (y :: s)).length = _
      rw [List.length_cons, List.length_cons, ih (by simp)]

theorem modLast_inj (b₁ b₂ : Str) (l : List Str)
    (h : modLast b₁ l = modLast b₂ l) : b₁ = b₂ := by
  induction l with
  | nil =>
    simp only [modLast, List.cons.injEq] at h
    exact h.1
  | cons x t ih =>
    cases t with
    | nil =>
      simp only [modLast, List.cons.injEq] at h
      exact List.append_cancel_left h.1
    | cons y s =>
      have h' : x :: modLast b₁ (y :: s) = x :: modLast b₂ (y :: s) := h
      rw [List.cons.injEq] at h'
      exact ih h'.2

/-- Splitting after appending a dot-free suffix extends the last segment. -/
theorem splitOnDot_append_dotfree (a b : Str) (hb : '.' ∉ b) :
    splitOnDot (a ++ b) = modLast b (splitOnDot a) := by
  induction a with
  | nil =>
    rw [List.nil_append, splitOnDot_of_dotfree b hb, splitOnDot_nil]
    simp [modLast]
  | cons c t ih =>
    by_cases hc : c = '.'
    · subst hc
      rw [List.cons_append, splitOnDot_cons_dot, splitOnDot_cons_dot, ih]
      cases hsp : splitOnDot t with
      | nil => exact absurd hsp (splitOnDot_ne_nil t)
      | cons y ys => simp [modLast]
    · rw [List.cons_append, splitOnDot_cons_ne c _ hc, splitOnDot_cons_ne c t hc, ih]
      cases hsp : splitOnDot t with
      | nil => exact absurd hsp (splitOnDot_ne_nil t)
      | cons x ys =>
        cases ys with
        | nil => simp [modLast]
        | cons y s => simp [modLast]

/-- Splitting after appending dot-prefixed dot-free segments appends them. -/
theorem splitOnDot_append_dotsCat (g : List Str) (hg : ∀ x ∈ g, '.' ∉ x) :
    ∀ a : Str, splitOnDot (a ++ dotsCat g) = splitOnDot a ++ g := by
  induction g with
  | nil => intro a; simp [dotsCat]
  | cons x t ih =>
    intro a
    have hx : '.' ∉ x := hg x (List.mem_cons_self _ _)
    have ht : ∀ y ∈ t, '.' ∉ y := fun y hy => hg y (List.mem_cons_of_mem x hy)
    show splitOnDot (a ++ (('.' :: x) ++ dotsCat t)) = _
    have : a ++ (('.' :: x) ++ dotsCat t) = a ++ '.' :: (x ++ dotsCat t) := by simp
    rw [this, splitOnDot_append_dot, ih ht x, splitOnDot_of_dotfree x hx]
    rfl

/-- The segment list of an applied well-formed extension. -/
theorem segs_applyExt (key : Str) (e : Ext) (he : ExtGood e) :
    splitOnDot (applyExt key e) = modLast e.1 (splitOnDot key) ++ e.2 := by
  obtain ⟨hd, _, hγ⟩ := he
  rw [applyExt, splitOnDot_append_dotsCat e.2 hγ (key ++ e.1),
    splitOnDot_append_dotfree key e.1 hd]

/-- A prefix of an append splits when the left parts have equal length. -/
theorem prefix_append_of_length_eq {α : Type} (a₁ b₁ a₂ b₂ : List α)
    (h : a₁ ++ b₁ <+: a₂ ++ b₂) (hl : a₁.length = a₂.length) :
    a₁ = a₂ ∧ b₁ <+: b₂ := by
  obtain ⟨t, ht⟩ := h
  rw [List.append_assoc] at ht
  obtain ⟨h₁, h₂⟩ := List.append_inj ht hl
  exact ⟨h₁, ⟨t, h₂⟩⟩

/-- The flattening of a good value has an antichain key set. -/
theorem flatten_antichain (key : Str) (v : GoVal) (hg : goodVal v = true) :
    SegAntichain ((specFlatten key v).map Prod.fst) := by
  intro k hk q hq hpre
  rw [flatten_keys_all.1 v key] at hk hq
  obtain ⟨e₁, he₁, hk₁⟩ := List.mem_map.mp hk
  obtain ⟨e₂, he₂, hk₂⟩ := List.mem_map.mp hq
  subst hk₁
  subst hk₂
  have hG₁ := extGood_all.1 v hg e₁ he₁
  have hG₂ := extGood_all.1 v hg e₂ he₂
  by_cases heq : e₁ = e₂
  · rw [heq]
  · rw [segs_applyExt key e₁ hG₁, segs_applyExt key e₂ hG₂] at hpre
    have hlen : (modLast e₁.1 (splitOnDot key)).length
        = (modLast e₂.1 (splitOnDot key)).length := by
      rw [modLast_length _ _ (splitOnDot_ne_nil key),
        modLast_length _ _ (splitOnDot_ne_nil key)]
    obtain ⟨hml, hg2⟩ := prefix_append_of_length_eq _ _ _ _ hpre hlen
    have hle : extLe e₁ e₂ := ⟨modLast_inj e₁.1 e₂.1 (splitOnDot key) hml, hg2⟩
    have hsym : ∀ a b : Ext, extIncomp a b → extIncomp b a := by
      rintro a b ⟨h1, h2⟩
      exact ⟨h2, h1⟩
    have hpw := pairwise_incomp_all.1 v hg
    have hinc : extIncomp e₁ e₂ := by
      refine List.Pairwise.forall ?_ hpw he₁ he₂ heq
      intro a b hab
      exact hsym a b hab
    exact absurd hle hinc.1

/-! ### Key-set membership through `insertAll` -/

theorem mem_keysOf_insertKV (q k v : Str) (st : Store) :
    q ∈ keysOf (insertKV k v st) ↔ q ∈ keysOf st ∨ q = k := by
  induction st with
  | nil => simp [insertKV, keysOf]
  | cons p t ih =>
    obtain ⟨k₀, v₀⟩ := p
    by_cases h : k₀ = k
    · subst h
      rw [insertKV, if_pos rfl]
      simp only [keysOf, List.map_cons, List.mem_cons]
      tauto
    · rw [insertKV, if_neg h]
      simp only [keysOf, List.map_cons, List.mem_cons]
      rw [show (insertKV k v t).map Prod.fst = keysOf (insertKV k v t) from rfl, ih,
        show t.map Prod.fst = keysOf t from rfl]
      tauto

theorem mem_keysOf_insertAll (l : List (Str × Str)) :
    ∀ (st : Store) (q : Str),
      q ∈ keysOf (insertAll l st) ↔ q ∈ keysOf st ∨ q ∈ l.map Prod.fst := by
  induction l with
  | nil => intro st q; simp [insertAll]
  | cons p t ih =>
    intro st q
    obtain ⟨k, v⟩ := p
    show q ∈ keysOf (insertAll t (insertKV k v st)) ↔ _
    rw [ih (insertKV k v st) q, mem_keysOf_insertKV]
    simp only [List.map_cons, List.mem_cons]
    tauto

/-- First segments of applied extensions avoid the root marker. -/
theorem firstSeg_applyExt_ne_root (key : Str) (e : Ext) (he : ExtGood e)
    (hk : firstSeg key ≠ rootStr) : firstSeg (applyExt key e) ≠ rootStr := by
  have hbs := he.2.1
  rw [firstSeg, segs_applyExt key e he]
  have hml := modLast_ne_nil e.1 (splitOnDot key)
  have happ : ∀ (a b : List Str), a ≠ [] → (a ++ b).headI = a.headI := by
    intro a b ha
    cases a with
    | nil => exact absurd rfl ha
    | cons x t => rfl
  rw [happ _ _ hml]
  cases hsp : splitOnDot key with
  | nil => exact absurd hsp (splitOnDot_ne_nil key)
  | cons x t =>
    rw [firstSeg, hsp] at hk
    cases t with
    | cons y s =>
      show (x :: modLast e.1 (y :: s)).headI ≠ rootStr
      exact hk
    | nil =>
      show ([x ++ e.1] : List Str).headI ≠ rootStr
      rcases hbs with hb | ⟨r, hb⟩
      · rw [hb]
        simpa using hk
      · rw [hb]
        show x ++ '[' :: r ≠ rootStr
        intro hcontra
        cases x with
        | nil =>
          rw [List.nil_append] at hcontra
          have hx : '[' = '$' := by
            have hh := congrArg List.headI hcontra
            simp only [rootStr, str] at hh
            exact hh
          exact absurd hx (by decide)
        | cons c x' =>
          have := congrArg List.length hcontra
          simp [rootStr, str] at this

/-! ### The placeholder resolver

`Properties.Resolve` (conf.go lines 263–266) delegates to `resolveString`,
whose body is not part of the repository sources available here; the
resolver below is therefore modelled from the spec (§4.2). -/

/-- Resolution errors: a reference cycle on `name`, or a missing key with no
default. -/
inductive RErr where
  | cycle (name : Str)
  | missing (name : Str)
  deriving DecidableEq

/-- Resolution results; `fuelOut` marks exhausted fuel, never a real answer. -/
inductive RRes where
  | ok (s : Str)
  | err (e : RErr)
  | fuelOut
  deriving DecidableEq

/-- Modelled from the spec: the balanced-brace scan of §4.2 ("recursively
parse the balanced-brace span, supporting arbitrary nesting depth").  Given
the text after an opening `"${"` and the current nesting depth, returns the
span up to the matching `'}'` and the remainder. -/
def spanRef : Str → Nat → Option (Str × Str)
  | [], _ => none
  | '}' :: t, 0 => some ([], t)
  | '}' :: t, d + 1 => (spanRef t d).map (fun p => ('}' :: p.1, p.2))
  | '$' :: '{' :: t, d => (spanRef t (d + 1)).map (fun p => ('$' :: '{' :: p.1, p.2))
  | c :: t, d => (spanRef t d).map (fun p => (c :: p.1, p.2))

/-- Modelled from the spec: the left-to-right scan of §4.2.  Finds the first
`"${"`, returning the literal before it, the balanced span inside, and the
text after the matching `'}'`. -/
def findRef : Str → Option (Str × Str × Str)
  | [] => none
  | '$' :: '{' :: t =>
    match spanRef t 0 with
    | some (inner, after) => some ([], inner, after)
    | none => none
  | c :: t => (findRef t).map (fun p => (c :: p.1, p.2.1, p.2.2))

/-- Modelled from the spec: splitting a reference body on the first `":="`
into name and optional default. -/
def splitAssign : Str → Str × Option Str
  | [] => ([], none)
  | ':' :: '=' :: t => ([], some t)
  | c :: t => ((splitAssign t).1.cons c, (splitAssign t).2)

/-- Modelled from the spec: the recursive placeholder resolver of §4.2 with
explicit fuel.  It scans for a reference, checks the in-progress resolution
chain (cycle detection), resolves the name through the store — recursively
resolving the fetched value — or falls back to the recursively resolved
default, and concatenates the pieces. -/
def resolveF (st : Store) : Nat → List Str → Str → RRes
  | 0, _, _ => .fuelOut
  | f + 1, chain, s =>
    match findRef s with
    | none => .ok s
    | some (lit, inner, after) =>
      if (splitAssign inner).1 ∈ chain then .err (.cycle (splitAssign inner).1)
      else
        match (match lookupKV (splitAssign inner).1 st with
               | some v => resolveF st f ((splitAssign inner).1 :: chain) v
               | none =>
                 match (splitAssign inner).2 with
                 | some d => resolveF st f ((splitAssign inner).1 :: chain) d
                 | none => .err (.missing (splitAssign inner).1)) with
        | .ok v₁ =>
          match resolveF st f chain after with
          | .ok v₂ => .ok (lit ++ v₁ ++ v₂)
          | .err e => .err e
          | .fuelOut => .fuelOut
        | .err e => .err e
        | .fuelOut => .fuelOut

namespace Properties

/-- Modelled from the spec: `Properties.Resolve`, resolving a whole string
with an empty in-progress chain. -/
def resolve (st : Store) (fuel : Nat) (s : Str) : RRes := resolveF st fuel [] s

end Properties

/-- More fuel never changes a settled result. -/
theorem resolveF_mono (st : Store) :
    ∀ f : Nat, ∀ chain s, resolveF st f chain s ≠ .fuelOut →
    ∀ g : Nat, f ≤ g → resolveF st g chain s = resolveF st f chain s := by
  intro f
  induction f with
  | zero => intro chain s h; exact absurd rfl h
  | succ f ih =>
    intro chain s h g hg
    cases g with
    | zero => omega
    | succ g =>
      have hfg : f ≤ g := by omega
      cases hfr : findRef s with
      | none => simp only [resolveF, hfr]
      | some p =>
        obtain ⟨lit, inner, after⟩ := p
        by_cases hc : (splitAssign inner).1 ∈ chain
        · simp only [resolveF, hfr, if_pos hc]
        · cases hlk : lookupKV (splitAssign inner).1 st with
          | some v =>
            have h1ne : resolveF st f ((splitAssign inner).1 :: chain) v ≠ .fuelOut := by
              intro hfo
              apply h
              simp only [resolveF, hfr, if_neg hc, hlk, hfo]
            have h1 := ih ((splitAssign inner).1 :: chain) v h1ne g hfg
            cases hr1 : resolveF st f ((splitAssign inner).1 :: chain) v with
            | ok v₁ =>
              have h2ne : resolveF st f chain after ≠ .fuelOut := by
                intro hfo
                apply h
                simp only [resolveF, hfr, if_neg hc, hlk, hr1, hfo]
              have h2 := ih chain after h2ne g hfg
              simp only [resolveF, hfr, if_neg hc, hlk, h1, hr1, h2]
            | err e =>
              simp only [resolveF, hfr, if_neg hc, hlk, h1, hr1]
            | fuelOut => exact absurd hr1 h1ne
          | none =>
            cases hd : (splitAssign inner).2 with
            | some d =>
              have h1ne : resolveF st f ((splitAssign inner).1 :: chain) d ≠ .fuelOut := by
                intro hfo
                apply h
                simp only [resolveF, hfr, if_neg hc, hlk, hd, hfo]
              have h1 := ih ((splitAssign inner).1 :: chain) d h1ne g hfg
              cases hr1 : resolveF st f ((splitAssign inner).1 :: chain) d with
              | ok v₁ =>
                have h2ne : resolveF st f chain after ≠ .fuelOut := by
                  intro hfo
                  apply h
                  simp only [resolveF, hfr, if_neg hc, hlk, hd, hr1, hfo]
                have h2 := ih chain after h2ne g hfg
                simp only [resolveF, hfr, if_neg hc, hlk, hd, h1, hr1, h2]
              | err e =>
                simp only [resolveF, hfr, if_neg hc, hlk, hd, h1, hr1]
              | fuelOut => exact absurd hr1 h1ne
            | none =>
              simp only [resolveF, hfr, if_neg hc, hlk, hd]

/-! ### Termination of the resolver: enough fuel always exists -/

theorem spanRef_length (t : Str) (d : Nat) :
    ∀ p : Str × Str, spanRef t d = some p →
    p.1.length + p.2.length + 1 = t.length := by
  induction t, d using spanRef.induct with
  | case1 d =>
    intro p h
    simp [spanRef] at h
  | case2 t =>
    intro p h
    simp only [spanRef, Option.some_inj] at h
    subst h
    simp
  | case3 t d ih =>
    intro p h
    simp only [spanRef, Option.map_eq_some'] at h
    obtain ⟨⟨q1, q2⟩, hq, hpq⟩ := h
    have hlen : q1.length + q2.length + 1 = t.length := ih (q1, q2) hq
    subst hpq
    simp only [List.length_cons]
    omega
  | case4 t d ih =>
    intro p h
    simp only [spanRef, Option.map_eq_some'] at h
    obtain ⟨⟨q1, q2⟩, hq, hpq⟩ := h
    have hlen : q1.length + q2.length + 1 = t.length := ih (q1, q2) hq
    subst hpq
    simp only [List.length_cons]
    omega
  | case5 c t d h1 h2 h3 ih =>
    intro p h
    simp only [spanRef, Option.map_eq_some'] at h
    obtain ⟨⟨q1, q2⟩, hq, hpq⟩ := h
    have hlen : q1.length + q2.length + 1 = t.length := ih (q1, q2) hq
    subst hpq
    simp only [List.length_cons]
    omega

theorem findRef_length (s : Str) :
    ∀ p : Str × Str × Str, findRef s = some p →
    p.1.length + p.2.1.length + p.2.2.length + 3 = s.length := by
  induction s using findRef.induct with
  | case1 =>
    intro p h
    simp [findRef] at h
  | case2 t inner after hsp =>
    intro p h
    simp only [findRef, hsp, Option.some_inj] at h
    have hlen : inner.length + after.length + 1 = t.length :=
      spanRef_length t 0 (inner, after) hsp
    subst h
    simp only [List.length_cons, List.length_nil]
    omega
  | case3 t hsp =>
    intro p h
    simp only [findRef, hsp] at h
    exact absurd h (by simp)
  | case4 c t h1 ih =>
    intro p h
    simp only [findRef, Option.map_eq_some'] at h
    obtain ⟨⟨q1, q2, q3⟩, hq, hpq⟩ := h
    have hlen : q1.length + q2.length + q3.length + 3 = t.length := ih (q1, q2, q3) hq
    subst hpq
    simp only [List.length_cons]
    omega

theorem splitAssign_snd_length (x : Str) :
    ∀ d : Str, (splitAssign x).2 = some d → d.length + 2 ≤ x.length := by
  induction x using splitAssign.induct with
  | case1 =>
    intro d h
    simp [splitAssign] at h
  | case2 t =>
    intro d h
    simp only [splitAssign, Option.some_inj] at h
    subst h
    simp only [List.length_cons]
    omega
  | case3 c t h1 ih =>
    intro d h
    simp only [splitAssign] at h
    have := ih d h
    simp only [List.length_cons]
    omega

/-- Store keys not yet on the in-progress chain. -/
def freeCnt (st : Store) (chain : List Str) : Nat :=
  ((keysOf st).toFinset \ chain.toFinset).card

theorem freeCnt_cons_le (st : Store) (x : Str) (chain : List Str) :
    freeCnt st (x :: chain) ≤ freeCnt st chain := by
  apply Finset.card_le_card
  apply Finset.sdiff_subset_sdiff (Finset.Subset.refl _)
  rw [List.toFinset_cons]
  exact Finset.subset_insert _ _

theorem freeCnt_cons_lt (st : Store) (name : Str) (chain : List Str)
    (hk : name ∈ keysOf st) (hc : name ∉ chain) :
    freeCnt st (name :: chain) < freeCnt st chain := by
  apply Finset.card_lt_card
  rw [Finset.ssubset_iff_of_subset]
  · refine ⟨name, ?_, ?_⟩
    · rw [Finset.mem_sdiff]
      exact ⟨List.mem_toFinset.mpr hk, fun hm => hc (List.mem_toFinset.mp hm)⟩
    · rw [Finset.mem_sdiff, List.toFinset_cons]
      rintro ⟨-, hn⟩
      exact hn (Finset.mem_insert_self _ _)
  · apply Finset.sdiff_subset_sdiff (Finset.Subset.refl _)
    rw [List.toFinset_cons]
    exact Finset.subset_insert _ _

theorem freeCnt_pos (st : Store) (name : Str) (chain : List Str)
    (hk : name ∈ keysOf st) (hc : name ∉ chain) : 0 < freeCnt st chain := by
  apply Finset.card_pos.mpr
  refine ⟨name, ?_⟩
  rw [Finset.mem_sdiff]
  exact ⟨List.mem_toFinset.mpr hk, fun hm => hc (List.mem_toFinset.mp hm)⟩

/-- One unfolding step of the termination argument. -/
theorem resolveF_step (st : Store) (chain : List Str) (s : Str)
    (hval : ∀ name v, lookupKV name st = some v → name ∉ chain →
      ∃ f, resolveF st f (name :: chain) v ≠ .fuelOut)
    (hshort : ∀ (chain' : List Str) (s' : Str), s'.length < s.length →
      freeCnt st chain' ≤ freeCnt st chain → ∃ f, resolveF st f chain' s' ≠ .fuelOut) :
    ∃ f, resolveF st f chain s ≠ .fuelOut := by
  cases hfr : findRef s with
  | none => exact ⟨1, by simp [resolveF, hfr]⟩
  | some p =>
    obtain ⟨lit, inner, after⟩ := p
    have hlen := findRef_length s (lit, inner, after) hfr
    simp only at hlen
    by_cases hc : (splitAssign inner).1 ∈ chain
    · exact ⟨1, by simp [resolveF, hfr, hc]⟩
    · obtain ⟨f₂, h₂⟩ := hshort chain after (by omega) (Nat.le_refl _)
      cases hlk : lookupKV (splitAssign inner).1 st with
      | some v =>
        obtain ⟨f₁, h₁⟩ := hval (splitAssign inner).1 v hlk hc
        refine ⟨max f₁ f₂ + 1, ?_⟩
        have hm1 := resolveF_mono st f₁ _ v h₁ (max f₁ f₂) (Nat.le_max_left _ _)
        have hm2 := resolveF_mono st f₂ chain after h₂ (max f₁ f₂) (Nat.le_max_right _ _)
        simp only [resolveF, hfr, if_neg hc, hlk, hm1, hm2]
        cases hr1 : resolveF st f₁ ((splitAssign inner).1 :: chain) v with
        | ok v₁ =>
          cases hr2 : resolveF st f₂ chain after with
          | ok v₂ => simp
          | err e => simp
          | fuelOut => exact absurd hr2 h₂
        | err e => simp
        | fuelOut => exact absurd hr1 h₁
      | none =>
        cases hd : (splitAssign inner).2 with
        | some d =>
          have hdlen := splitAssign_snd_length inner d hd
          obtain ⟨f₁, h₁⟩ := hshort ((splitAssign inner).1 :: chain) d (by omega)
            (freeCnt_cons_le st _ chain)
          refine ⟨max f₁ f₂ + 1, ?_⟩
          have hm1 := resolveF_mono st f₁ _ d h₁ (max f₁ f₂) (Nat.le_max_left _ _)
          have hm2 := resolveF_mono st f₂ chain after h₂ (max f₁ f₂) (Nat.le_max_right _ _)
          simp only [resolveF, hfr, if_neg hc, hlk, hd, hm1, hm2]
          cases hr1 : resolveF st f₁ ((splitAssign inner).1 :: chain) d with
          | ok v₁ =>
            cases hr2 : resolveF st f₂ chain after with
            | ok v₂ => simp
            | err e => simp
            | fuelOut => exact absurd hr2 h₂
          | err e => simp
          | fuelOut => exact absurd hr1 h₁
        | none => exact ⟨1, by simp [resolveF, hfr, hc, hlk, hd]⟩

/-- The resolver always has sufficient fuel: it cannot loop forever. -/
theorem resolveF_exists_fuel (st : Store) (chain : List Str) (s : Str) :
    ∃ f, resolveF st f chain s ≠ .fuelOut := by
  have main : ∀ n : Nat, ∀ s' : Str, ∀ chain' : List Str,
      freeCnt st chain' ≤ n → ∃ f, resolveF st f chain' s' ≠ .fuelOut := by
    intro n
    induction n with
    | zero =>
      have inner : ∀ L : Nat, ∀ s' : Str, ∀ chain' : List Str, s'.length ≤ L →
          freeCnt st chain' ≤ 0 → ∃ f, resolveF st f chain' s' ≠ .fuelOut := by
        intro L
        induction L with
        | zero =>
          intro s' chain' hs _
          have : s' = [] := List.eq_nil_of_length_eq_zero (by omega)
          subst this
          exact ⟨1, by simp [resolveF, findRef]⟩
        | succ L ihL =>
          intro s' chain' hs hn
          apply resolveF_step st chain' s'
          · intro name v hlk hnc
            exfalso
            have hkm : name ∈ keysOf st := by
              by_contra hcon
              rw [← lookupKV_eq_none_iff] at hcon
              rw [hcon] at hlk
              exact Option.noConfusion hlk
            have := freeCnt_pos st name chain' hkm hnc
            omega
          · intro chain₂ s₂ hlt hfc
            exact ihL s₂ chain₂ (by omega) (by omega)
      exact fun s' chain' h => inner s'.length s' chain' (Nat.le_refl _) h
    | succ n ihn =>
      have inner : ∀ L : Nat, ∀ s' : Str, ∀ chain' : List Str, s'.length ≤ L →
          freeCnt st chain' ≤ n + 1 → ∃ f, resolveF st f chain' s' ≠ .fuelOut := by
        intro L
        induction L with
        | zero =>
          intro s' chain' hs _
          have : s' = [] := List.eq_nil_of_length_eq_zero (by omega)
          subst this
          exact ⟨1, by simp [resolveF, findRef]⟩
        | succ L ihL =>
          intro s' chain' hs hn
          apply resolveF_step st chain' s'
          · intro name v hlk hnc
            have hkm : name ∈ keysOf st := by
              by_contra hcon
              rw [← lookupKV_eq_none_iff] at hcon
              rw [hcon] at hlk
              exact Option.noConfusion hlk
            have hlt := freeCnt_cons_lt st name chain' hkm hnc
            exact ihn v (name :: chain') (by omega)
          · intro chain₂ s₂ hlt hfc
            exact ihL s₂ chain₂ (by omega) (by omega)
      exact fun s' chain' h => inner s'.length s' chain' (Nat.le_refl _) h
  exact main (freeCnt st chain) s chain (Nat.le_refl _)

/-! ### `Properties.Bind` dispatch (conf.go lines 197–233)

```go
func (p *Properties) Bind(i interface{}, opts ...BindOption) error {
    var v reflect.Value
    switch i.(type) {
    case reflect.Value:
        v = i.(reflect.Value)
    default:
        if v = reflect.ValueOf(i); v.Kind() != reflect.Ptr {
            return errors.New("属性绑定的对象必须是一个指针")
        }
        v = v.Elem()
    }
    arg := bindArg{}
    Key(rootKey)(&arg)
    for _, opt := range opts { opt(&arg) }
    t := v.Type()
    s := t.Name()
    if s == "" {
        switch t.Kind() {
        case reflect.Map, reflect.Slice, reflect.Array:
            s = t.Elem().Name()
            if s == "" { s = t.Elem().String() }
        default:
            s = t.String()
        }
    }
    return bind(p, v, arg.tag, bindOption{path: s})
}
```

The inner `bind` function's body is not among the sources here, so the
dispatch is modelled with `bind` as an abstract parameter: any function from
the bound value's type, the tag and the path to a target transformation with
an optional error. -/

/-- The reflect kinds the dispatch distinguishes. -/
inductive RKind where
  | ptr | mapK | sliceK | arrayK | structK | stringK | other
  deriving DecidableEq

/-- The slice of `reflect.Type` the dispatch reads: kind, `Name()`,
`String()`, and the same for `Elem()`. -/
structure RType where
  kind : RKind
  name : Str
  tstr : Str
  elemName : Str
  elemStr : Str
  deriving DecidableEq

/-- The argument of `Bind`: either a `reflect.Value` (carrying its type), or
any other Go value (carrying its reflect kind and, when it is a pointer, its
pointee type). -/
inductive BindInput where
  | reflectVal (v : RType)
  | goValue (kind : RKind) (elem : RType)
  deriving DecidableEq

namespace Properties

/-- `bindArg`: the option record accumulated by `BindOption`s. -/
structure BindArg where
  tag : Str
  deriving DecidableEq

/-- `type BindOption func(arg *bindArg)`. -/
abbrev BindOption := BindArg → BindArg

/-- `Key(key)`: sets the binding tag to `"${" + key + "}"`. -/
def Key (key : Str) : BindOption := fun a => { a with tag := str "$\x7b" ++ key ++ str "\x7d" }

/-- `Tag(tag)`: sets the binding tag verbatim. -/
def Tag (tag : Str) : BindOption := fun a => { a with tag := tag }

/-- The tag after defaulting to `Key(rootKey)` and applying the options. -/
def tagOf (opts : List BindOption) : Str :=
  (opts.foldl (fun (a : BindArg) (o : BindOption) => o a) (Key rootStr ⟨[]⟩)).tag

/-- The path name `s` computed from the bound value's type. -/
def pathName (t : RType) : Str :=
  if t.name ≠ [] then t.name
  else match t.kind with
    | .mapK | .sliceK | .arrayK => if t.elemName ≠ [] then t.elemName else t.elemStr
    | _ => t.tstr

/-- The pointer-precondition error message of `Bind`. -/
def ptrErr : Str := str "属性绑定的对象必须是一个指针"

/-- `Properties.Bind`'s dispatch, with the inner `bind` abstract.  The result
pairs the (possibly mutated) target with an optional error; the error path
returns the target untouched. -/
def bindModel {T : Type} (bindFn : RType → Str → Str → T → T × Option Str)
    (i : BindInput) (opts : List BindOption) (t : T) : T × Option Str :=
  match i with
  | .reflectVal v => bindFn v (tagOf opts) (pathName v) t
  | .goValue k elem =>
    if k ≠ .ptr then (t, some ptrErr)
    else bindFn elem (tagOf opts) (pathName elem) t

end Properties

/-! ### `pandora.Go` and `pandora.Invoke` (gs package)

```go
func (p *pandora) Go(fn interface{}, args ...arg.Arg) {
    p.c.callAfterRefreshing()
    fnType := reflect.TypeOf(fn)
    if !util.IsFuncType(fnType) || !util.ReturnNothing(fnType) {
        panic(errors.New("fn should be func()"))
    }
    r := arg.Bind(fn, args, arg.Skip(1))
    p.c.wg.Add(1)
    go func() {
        defer p.c.wg.Done()
        defer func() { if r := recover(); r != nil { log.Error(r) } }()
        _, err := r.Call(toAssembly(p.c))
        if err != nil { log.Error(err.Error()) }
    }()
}
```

`reflect.TypeOf` and the `util` predicates are reflection and cannot be
embedded; a function argument is abstracted to the three booleans the
dispatch reads. -/

namespace Gs

/-- What the `Go`/`Invoke` dispatch reads off an argument's type. -/
structure FnType where
  isFuncType : Bool
  returnNothing : Bool
  returnOnlyError : Bool
  deriving DecidableEq

/-- What happens in the caller's goroutine when `Go` is invoked: either a
panic escapes to the caller, or a task is launched after adding to the
wait-group. -/
inductive GoOutcome where
  | panicked (msg : Str)
  | launched (wgAdded : Nat)
  deriving DecidableEq

/-- The precondition dispatch of `Go` as run in the caller's goroutine. -/
def goLaunch (fn : FnType) : GoOutcome :=
  if !fn.isFuncType || !fn.returnNothing then .panicked (str "fn should be func()")
  else .launched 1

/-- The three ways `r.Call` can end inside the spawned goroutine. -/
inductive CallOutcome where
  | ok
  | retErr (e : Str)
  | panicked (m : Str)
  deriving DecidableEq

/-- Observable trace of one spawned goroutine run. -/
structure TaskTrace where
  logs : List Str
  wgDone : Bool
  panicEscaped : Bool
  deriving DecidableEq

/-- The spawned goroutine's body: `defer wg.Done()` always runs; the deferred
`recover` converts a panic into a `log.Error` call and ends the goroutine
normally; a returned error is logged.  No path lets a panic escape. -/
def runTask : CallOutcome → TaskTrace
  | .ok => ⟨[], true, false⟩
  | .retErr e => ⟨[e], true, false⟩
  | .panicked m => ⟨[m], true, false⟩

/-- `pandora.Invoke`'s dispatch; `callRes` models the `r.Call` result. -/
def invokeDispatch (fn : FnType) (callRes : Except Str (List Str)) :
    Except Str (List Str) :=
  if fn.isFuncType then
    if fn.returnNothing || fn.returnOnlyError then
      match callRes with
      | .error e => .error e
      | .ok vs => .ok vs
    else .error (str "fn should be func() or func()error")
  else .error (str "fn should be func() or func()error")

end Gs

/-! ## Claim theorems -/

/-- C1: `Properties.Set` flattens composite values recursively — each field of
a map value goes under `key.field`, each element `i` of a slice or array value
goes under `key[i]`, recursion continues until only scalars remain, and each
scalar is stored as its string representation, overwriting any previously
stored value at the same key.  Formally, `Set key v` equals overwriting
insertion (`insertKV`, left to right) of the spec's leaf list `specFlatten`;
`insertKV` overwrites colliding keys, shown by the second conjunct. -/
theorem claim_C1 :
    (∀ (key : Str) (v : GoVal) (st : Store),
        Properties.set key v st = insertAll (specFlatten key v) st) ∧
    (∀ (k v : Str) (st : Store), lookupKV k (insertKV k v st) = some v) :=
  ⟨set_eq_insertAll, lookupKV_insertKV_self⟩

/-- C2: `Properties.Get` strips an optional `"$."` prefix, then exact-matches
(case-sensitively); a hit returns the stored string, a miss with a `Def`
default returns the default coerced to a string, and a miss without default
returns `none` (Go `nil`), distinct from the empty string.  The last two
conjuncts witness case sensitivity on a concrete store. -/
theorem claim_C2 :
    (∀ k : Str, Properties.trimRootPre (rootDot ++ k) = k) ∧
    (∀ k : Str, rootDot.isPrefixOf k = false → Properties.trimRootPre k = k) ∧
    (∀ (st : Store) (key : Str) (opts : List Properties.GetOption) (v : Str),
        lookupKV (Properties.trimRootPre key) st = some v →
        Properties.get st key opts = some v) ∧
    (∀ (st : Store) (key : Str) (opts : List Properties.GetOption) (d : GoVal),
        lookupKV (Properties.trimRootPre key) st = none →
        Properties.defOf opts = some d →
        Properties.get st key opts = some (goToString d)) ∧
    (∀ (st : Store) (key : Str) (opts : List Properties.GetOption),
        lookupKV (Properties.trimRootPre key) st = none →
        Properties.defOf opts = none →
        Properties.get st key opts = none) ∧
    (∀ s : Str, (none : Option Str) ≠ some s) ∧
    Properties.get [(str "A", str "1")] (str "a") [] = none ∧
    Properties.get [(str "A", str "1")] (str "A") [] = some (str "1") := by
  refine ⟨trimRootPre_append, ?_, get_of_lookup_some, get_of_lookup_none_def_some,
    get_of_lookup_none_def_none, ?_, ?_, ?_⟩
  · intro k h
    simp [Properties.trimRootPre, h]
  · intro s h
    exact Option.noConfusion h
  · decide
  · decide

/-- C2 witness: the three behavioural conjuncts of `claim_C2` applied at
concrete inputs, hypotheses discharged by evaluation. -/
theorem claim_C2_witness :
    Properties.get [(str "k", str "v")] (str "$.k") [] = some (str "v") ∧
    Properties.get [] (str "x") [Properties.Def (.vInt 5)] = some (str "5") ∧
    Properties.get [] (str "x") [] = none :=
  ⟨claim_C2.2.2.1 [(str "k", str "v")] (str "$.k") [] (str "v") (by decide),
   claim_C2.2.2.2.1 [] (str "x") [Properties.Def (.vInt 5)] (.vInt 5) (by decide) rfl,
   claim_C2.2.2.2.2.1 [] (str "x") [] (by decide) rfl⟩

/-- C4: the resolver terminates on every input — for every store, chain and
string some fuel settles the result, and more fuel never changes it — and on
a reference cycle with no terminating default (the spec's example
`Resolve("${a:=${b}}")` with `b = "${a}"`) every sufficient fuel yields a
reference-cycle error rather than looping. -/
theorem claim_C4 :
    (∀ (st : Store) (chain : List Str) (s : Str), ∃ f : Nat,
        resolveF st f chain s ≠ .fuelOut ∧
        ∀ g : Nat, f ≤ g → resolveF st g chain s = resolveF st f chain s) ∧
    (∀ f : Nat, 3 ≤ f →
        Properties.resolve [(str "b", str "${a}")] f (str "${a:=${b}}")
          = .err (.cycle (str "a"))) := by
  constructor
  · intro st chain s
    obtain ⟨f, hf⟩ := resolveF_exists_fuel st chain s
    exact ⟨f, hf, fun g hg => resolveF_mono st f chain s hf g hg⟩
  · intro f hf
    have h3 : Properties.resolve [(str "b", str "${a}")] 3 (str "${a:=${b}}")
        = .err (.cycle (str "a")) := by decide
    have hne : resolveF [(str "b", str "${a}")] 3 [] (str "${a:=${b}}") ≠ .fuelOut := by
      decide
    exact (resolveF_mono [(str "b", str "${a}")] 3 [] (str "${a:=${b}}") hne f hf).trans h3

/-- C4 witness: `claim_C4` at fuel `5` on the spec's cyclic example. -/
theorem claim_C4_witness :
    Properties.resolve [(str "b", str "${a}")] 5 (str "${a:=${b}}")
      = .err (.cycle (str "a")) :=
  claim_C4.2 5 (by decide)

/-- C5: with an empty store, `Resolve("${x:=5}")` yields `"5"` (the default);
with `x = 7` stored, it yields `"7"` (the stored value wins), for every
sufficient fuel. -/
theorem claim_C5 :
    (∀ f : Nat, 2 ≤ f →
        Properties.resolve [] f (str "${x:=5}") = .ok (str "5")) ∧
    (∀ f : Nat, 2 ≤ f →
        Properties.resolve [(str "x", str "7")] f (str "${x:=5}") = .ok (str "7")) := by
  constructor
  · intro f hf
    have h2 : Properties.resolve [] 2 (str "${x:=5}") = .ok (str "5") := by decide
    have hne : resolveF [] 2 [] (str "${x:=5}") ≠ .fuelOut := by decide
    exact (resolveF_mono [] 2 [] (str "${x:=5}") hne f hf).trans h2
  · intro f hf
    have h2 : Properties.resolve [(str "x", str "7")] 2 (str "${x:=5}")
        = .ok (str "7") := by decide
    have hne : resolveF [(str "x", str "7")] 2 [] (str "${x:=5}") ≠ .fuelOut := by decide
    exact (resolveF_mono [(str "x", str "7")] 2 [] (str "${x:=5}") hne f hf).trans h2

/-- C5 witness: `claim_C5` at fuel `4` on both spec examples. -/
theorem claim_C5_witness :
    Properties.resolve [] 4 (str "${x:=5}") = .ok (str "5") ∧
    Properties.resolve [(str "x", str "7")] 4 (str "${x:=5}") = .ok (str "7") :=
  ⟨claim_C5.1 4 (by decide), claim_C5.2 4 (by decide)⟩

/-- C9 counterexample: the claim says that after `Set(key, emptyMap)` the
store has no entry at `key`, so `Get(key)` returns the absent marker `nil`
for every key.  With a store that already maps `"a"` to `"old"`,
`Set("a", map[...]{})` stores nothing — but `Get("a")` returns the old value,
not `nil`, and `Keys()` still contains `"a"`. -/
theorem claim_C9_counterexample :
    Properties.get (Properties.set (str "a") (.vMap .nil) [(str "a", str "old")])
        (str "a") [] = some (str "old") ∧
    some (str "old") ≠ (none : Option Str) ∧
    str "a" ∈ keysOf (Properties.set (str "a") (.vMap .nil) [(str "a", str "old")]) := by
  refine ⟨by decide, ?_, by decide⟩
  exact Option.noConfusion

/-- C9 (amended): `Set` with an empty map, slice or array is a no-op on the
store — no entry is created for `key` or any sub-key.  Consequently, when
`key` was absent beforehand `Get(key)` still returns the absent marker, and
no key is added to `Keys()`; empty composites are not representable.  (The
original claim's "Get returns nil afterwards" holds only when the key was
not already present, as the counterexample shows.) -/
theorem claim_C9 :
    (∀ (key : Str) (st : Store), Properties.set key (.vMap .nil) st = st) ∧
    (∀ (key : Str) (st : Store), Properties.set key (.vSeq .nil) st = st) ∧
    (∀ (key : Str) (st : Store),
        lookupKV (Properties.trimRootPre key) st = none →
        Properties.get (Properties.set key (.vMap .nil) st) key [] = none) ∧
    (∀ (key : Str) (st : Store) (k : Str),
        k ∉ keysOf st → k ∉ keysOf (Properties.set key (.vMap .nil) st)) := by
  refine ⟨fun key st => rfl, fun key st => rfl, ?_, ?_⟩
  · intro key st h
    exact get_of_lookup_none_def_none st key [] h rfl
  · intro key st k h
    exact h

/-- C3 counterexample: the round-trip claim quantifies over every nested
record/sequence structure, but a record field name containing a dot defeats
it.  `Set("k", map{"b": 1, "b.c": 2})` stores keys `k.b` and `k.b.c`;
`Group`-driven reconstruction stops at `k.b` (a stored key) and never reaches
`k.b.c`, so the recovered leaf-key set is `{k.b}`, not `{k.b, k.b.c}`. -/
theorem claim_C3_counterexample :
    str "k.b.c" ∈ keysOf (Properties.set (str "k")
      (.vMap (.cons (str "b") (.vInt 1) (.cons (str "b.c") (.vInt 2) .nil))) []) ∧
    str "k.b.c" ∉ recoverAll (Properties.set (str "k")
      (.vMap (.cons (str "b") (.vInt 1) (.cons (str "b.c") (.vInt 2) .nil))) []) 10 ∧
    recoverAll (Properties.set (str "k")
      (.vMap (.cons (str "b") (.vInt 1) (.cons (str "b.c") (.vInt 2) .nil))) []) 10
      = [str "k.b"] := by
  refine ⟨by decide, by decide, by decide⟩

/-- C3 (amended): for every nested record/sequence structure whose record
field names contain neither `'.'` nor `'['` and are duplicate-free within
each record (`goodVal`), and whose root key does not start with the root
marker segment `"$"`, `Set` followed by `Group`-driven reconstruction
(`recoverAll`, with fuel at least the maximal key depth) recovers exactly the
leaf-key set that `Set` produced.  (The unrestricted claim fails: a field
name containing a dot makes one leaf key a dot-boundary prefix of another,
which stops the reconstruction early — see the counterexample.) -/
theorem claim_C3 (key : Str) (v : GoVal) (f : Nat)
    (hg : goodVal v = true)
    (hroot : firstSeg key ≠ rootStr)
    (hdepth : ∀ k ∈ keysOf (Properties.set key v []), (splitOnDot k).length ≤ f) :
    ∀ q, q ∈ recoverAll (Properties.set key v []) (f + 1) ↔
      q ∈ keysOf (Properties.set key v []) := by
  have hmem : ∀ q, q ∈ keysOf (Properties.set key v []) ↔
      q ∈ (specFlatten key v).map Prod.fst := by
    intro q
    rw [set_eq_insertAll key v [], mem_keysOf_insertAll]
    simp [keysOf]
  have hrootk : ∀ k ∈ keysOf (Properties.set key v []), firstSeg k ≠ rootStr := by
    intro k hk
    rw [hmem k, flatten_keys_all.1 v key] at hk
    obtain ⟨e, he, hke⟩ := List.mem_map.mp hk
    rw [← hke]
    exact firstSeg_applyExt_ne_root key e (extGood_all.1 v hg e he) hroot
  have hA : SegAntichain (keysOf (Properties.set key v [])) := by
    intro k hk q hq hpre
    rw [hmem] at hk hq
    exact flatten_antichain key v hg k hk q hq hpre
  exact recoverAll_correct (Properties.set key v []) f hrootk hdepth hA

/-- C3 witness: `claim_C3` applied to the structure
`map{"one": ["u"], "two": map{"url": "w"}}` under root key `"db"`, all
hypotheses discharged by evaluation; both leaf keys are recovered. -/
theorem claim_C3_witness :
    str "db.one[0]" ∈ recoverAll (Properties.set (str "db")
      (.vMap (.cons (str "one") (.vSeq (.cons (.vStr (str "u")) .nil))
        (.cons (str "two") (.vMap (.cons (str "url") (.vStr (str "w")) .nil)) .nil))) []) 5 ∧
    str "db.two.url" ∈ recoverAll (Properties.set (str "db")
      (.vMap (.cons (str "one") (.vSeq (.cons (.vStr (str "u")) .nil))
        (.cons (str "two") (.vMap (.cons (str "url") (.vStr (str "w")) .nil)) .nil))) []) 5 :=
  ⟨(claim_C3 (str "db")
      (.vMap (.cons (str "one") (.vSeq (.cons (.vStr (str "u")) .nil))
        (.cons (str "two") (.vMap (.cons (str "url") (.vStr (str "w")) .nil)) .nil))) 4
      (by decide) (by decide) (by decide) (str "db.one[0]")).mpr (by decide),
   (claim_C3 (str "db")
      (.vMap (.cons (str "one") (.vSeq (.cons (.vStr (str "u")) .nil))
        (.cons (str "two") (.vMap (.cons (str "url") (.vStr (str "w")) .nil)) .nil))) 4
      (by decide) (by decide) (by decide) (str "db.two.url")).mpr (by decide)⟩

/-- C6 counterexample: the claim says a non-function argument to `Go` or
`Invoke` produces an error returned to the immediate caller rather than
escaping as a panic.  For `Go` the code panics in the caller: `Go`'s
signature returns nothing, and the precondition check executes
`panic(errors.New("fn should be func()"))` before any goroutine is spawned. -/
theorem claim_C6_counterexample :
    Gs.goLaunch ⟨false, false, false⟩ = .panicked (str "fn should be func()") ∧
    (∀ msg wg, Gs.GoOutcome.panicked msg ≠ .launched wg) := by
  refine ⟨rfl, ?_⟩
  intro msg wg h
  exact Gs.GoOutcome.noConfusion h

/-- C6 (amended): `Invoke` returns the precondition error
`"fn should be func() or func()error"` to the immediate caller for every
non-function argument and every function of the wrong signature; `Go`, whose
signature returns nothing, panics in the caller's goroutine on a
precondition violation; only panics inside an already-launched `Go` task are
converted to logged, non-fatal events. -/
theorem claim_C6 :
    (∀ (fn : Gs.FnType) (r : Except Str (List Str)), fn.isFuncType = false →
        Gs.invokeDispatch fn r = .error (str "fn should be func() or func()error")) ∧
    (∀ (fn : Gs.FnType) (r : Except Str (List Str)),
        fn.returnNothing = false → fn.returnOnlyError = false →
        Gs.invokeDispatch fn r = .error (str "fn should be func() or func()error")) ∧
    (∀ fn : Gs.FnType, (fn.isFuncType && fn.returnNothing) = false →
        Gs.goLaunch fn = .panicked (str "fn should be func()")) ∧
    (∀ m : Str, Gs.runTask (.panicked m) = ⟨[m], true, false⟩) := by
  refine ⟨?_, ?_, ?_, fun m => rfl⟩
  · intro fn r h
    simp [Gs.invokeDispatch, h]
  · intro fn r h1 h2
    by_cases hf : fn.isFuncType
    · simp [Gs.invokeDispatch, hf, h1, h2]
    · simp [Gs.invokeDispatch, hf]
  · intro fn h
    rw [Bool.and_eq_false_iff] at h
    rcases h with h | h
    · simp [Gs.goLaunch, h]
    · simp [Gs.goLaunch, h]

/-- C6 witness: `claim_C6` applied to a non-function argument and to a
function of the wrong signature. -/
theorem claim_C6_witness :
    Gs.invokeDispatch ⟨false, false, false⟩ (.ok [])
      = .error (str "fn should be func() or func()error") ∧
    Gs.invokeDispatch ⟨true, false, false⟩ (.ok [])
      = .error (str "fn should be func() or func()error") ∧
    Gs.goLaunch ⟨false, false, false⟩ = .panicked (str "fn should be func()") :=
  ⟨claim_C6.1 ⟨false, false, false⟩ (.ok []) rfl,
   claim_C6.2.1 ⟨true, false, false⟩ (.ok []) rfl rfl,
   claim_C6.2.2.1 ⟨false, false, false⟩ rfl⟩

/-- C7: passing a non-pointer (non-`reflect.Value`) value to
`Properties.Bind` fails immediately with the explicit error
`"属性绑定的对象必须是一个指针"` and performs no mutation of the target — the
dispatch returns before the inner `bind` ever runs, for every possible
`bind` implementation. -/
theorem claim_C7 :
    ∀ {T : Type} (bindFn : RType → Str → Str → T → T × Option Str)
      (k : RKind) (elem : RType) (opts : List Properties.BindOption) (t : T),
      k ≠ .ptr →
      Properties.bindModel bindFn (.goValue k elem) opts t
        = (t, some Properties.ptrErr) := by
  intro T bindFn k elem opts t hk
  simp [Properties.bindModel, hk]

/-- C7 witness: `claim_C7` on a struct-kind argument with a `bind` stand-in
that would mutate the target — the target comes back untouched with the
pointer error. -/
theorem claim_C7_witness :
    Properties.bindModel (fun _ _ _ (t : Nat) => (t + 1, none))
      (.goValue .structK ⟨.structK, str "S", str "pkg.S", [], []⟩) [] 0
      = (0, some Properties.ptrErr) :=
  claim_C7 (fun _ _ _ (t : Nat) => (t + 1, none))
    .structK ⟨.structK, str "S", str "pkg.S", [], []⟩ [] 0 (by decide)

/-- C8: a panic inside a `Go`-launched task is recovered and logged inside
the spawned goroutine and never escapes; the deferred wait-group `Done`
always runs, `Go` adds exactly one wait-group token per launched task, and
each task's trace depends only on its own call outcome, so one task's panic
cannot affect the others. -/
theorem claim_C8 :
    (∀ o : Gs.CallOutcome,
        (Gs.runTask o).panicEscaped = false ∧ (Gs.runTask o).wgDone = true) ∧
    (∀ m : Str, (Gs.runTask (.panicked m)).logs = [m]) ∧
    (∀ fn : Gs.FnType, fn.isFuncType = true → fn.returnNothing = true →
        Gs.goLaunch fn = .launched 1) ∧
    (∀ (outcomes : List Gs.CallOutcome) (i : Nat),
        (outcomes.map Gs.runTask)[i]? = (outcomes[i]?).map Gs.runTask) := by
  refine ⟨?_, fun m => rfl, ?_, ?_⟩
  · intro o
    cases o <;> exact ⟨rfl, rfl⟩
  · intro fn h1 h2
    simp [Gs.goLaunch, h1, h2]
  · intro outcomes i
    exact List.getElem?_map Gs.runTask outcomes i

/-- C8 witness: `claim_C8` at a panicking outcome and a well-typed task. -/
theorem claim_C8_witness :
    (Gs.runTask (.panicked (str "boom"))).panicEscaped = false ∧
    Gs.goLaunch ⟨true, true, false⟩ = .launched 1 :=
  ⟨(claim_C8.1 (.panicked (str "boom"))).1,
   claim_C8.2.2.1 ⟨true, true, false⟩ rfl rfl⟩

/-- C10: when the first argument to `Properties.Bind` is a `reflect.Value`,
the pointer precondition check is bypassed entirely — the dispatch proceeds
straight to the inner `bind` for any `reflect.Value`, whatever its kind, and
the `"must be a pointer"` error arises only on the non-`reflect.Value` path
with a non-pointer kind (a pointer kind also proceeds, on its pointee). -/
theorem claim_C10 :
    (∀ {T : Type} (bindFn : RType → Str → Str → T → T × Option Str)
        (v : RType) (opts : List Properties.BindOption) (t : T),
        Properties.bindModel bindFn (.reflectVal v) opts t
          = bindFn v (Properties.tagOf opts) (Properties.pathName v) t) ∧
    (∀ {T : Type} (bindFn : RType → Str → Str → T → T × Option Str)
        (elem : RType) (opts : List Properties.BindOption) (t : T),
        Properties.bindModel bindFn (.goValue .ptr elem) opts t
          = bindFn elem (Properties.tagOf opts) (Properties.pathName elem) t) ∧
    (∀ {T : Type} (bindFn : RType → Str → Str → T → T × Option Str)
        (k : RKind) (elem : RType) (opts : List Properties.BindOption) (t : T),
        k ≠ .ptr →
        Properties.bindModel bindFn (.goValue k elem) opts t
          = (t, some Properties.ptrErr)) := by
  refine ⟨?_, ?_, ?_⟩
  · intro T bindFn v opts t
    rfl
  · intro T bindFn elem opts t
    simp [Properties.bindModel]
  · intro T bindFn k elem opts t hk
    simp [Properties.bindModel, hk]

/-- C10 witness: the first conjunct of `claim_C10` on a non-pointer,
non-addressable `reflect.Value` — the dispatch still reaches `bind` and no
pointer error is produced. -/
theorem claim_C10_witness :
    Properties.bindModel (fun _ _ _ (t : Nat) => (t + 1, none))
      (.reflectVal ⟨.structK, str "S", str "pkg.S", [], []⟩) [] 0 = (1, none) ∧
    Properties.bindModel (fun _ _ _ (t : Nat) => (t + 1, none))
      (.goValue .mapK ⟨.mapK, [], str "map[string]int", str "int", str "int"⟩) [] 0
      = (0, some Properties.ptrErr) :=
  ⟨(claim_C10.1 (fun _ _ _ (t : Nat) => (t + 1, none))
      ⟨.structK, str "S", str "pkg.S", [], []⟩ [] 0).trans rfl,
   claim_C10.2.2 (fun _ _ _ (t : Nat) => (t + 1, none))
     .mapK ⟨.mapK, [], str "map[string]int", str "int", str "int"⟩ [] 0 (by decide)⟩

/-- C9 witness: the no-op and absence conjuncts of `claim_C9` at concrete
inputs. -/
theorem claim_C9_witness :
    Properties.set (str "x") (.vMap .nil) [] = [] ∧
    Properties.get (Properties.set (str "x") (.vMap .nil) []) (str "x") [] = none ∧
    str "x" ∉ keysOf (Properties.set (str "x") (.vMap .nil) []) :=
  ⟨claim_C9.1 (str "x") [],
   claim_C9.2.2.1 (str "x") [] (by decide),
   claim_C9.2.2.2 (str "x") [] (str "x") (by decide)⟩

end GoSpring
